import Mathlib

/-!
Shallow embedding of the explicit-free-list memory allocator in
`Lab 7 - Malloc Lab/mm.c`.

Modelling conventions:
* The heap is a word-indexed memory `mem : Nat → Nat` together with its
  current extent `len` in 64-bit words.  A pointer is a word index; the C
  null pointer is encoded as the index 0, which is unambiguous because the
  word at index 0 is always the prologue footer and never a block.
* All header/footer words are 64-bit values; `extract_size` masks into
  64 bits exactly as the C `word_t` arithmetic does, and the size
  normalisation in `mm_malloc` performs its additions modulo 2^64 as the
  C `size_t` arithmetic does.
* The heap provider (`mem_sbrk`) is modelled by a boolean oracle `ok`
  passed to the operations that may grow the heap: `ok = true` means the
  provider grants the request, `ok = false` means it refuses (-1 in C).
* `mm_malloc` returns `none` on the path where the C code would
  dereference the null pointer returned by the second `find_fit`
  (undefined behaviour); `some (s, none)` models returning NULL and
  `some (s, some p)` models returning the payload pointer `p`.
* Nat subtraction truncates at 0 where C `size_t` subtraction would wrap;
  the two differ only on arguments that no invariant-respecting call
  produces, and every concrete input used below stays in the range where
  they agree.
-/

namespace MM

/-- 2^64, the modulus of the C `word_t` / `size_t` arithmetic. -/
def wordMod : Nat := 2 ^ 64

/-- Word size in bytes (`wsize` in mm.c). -/
def wsize : Nat := 8

/-- Double word size in bytes (`dsize` in mm.c). -/
def dsize : Nat := 16

/-- Minimum usable block size in bytes (`min_block_size` in mm.c). -/
def min_block_size : Nat := 32

/-- Initial heap extension in bytes (`chunksize` in mm.c). -/
def chunksize : Nat := 4096

/-- Mask extracting the allocated bit (`alloc_mask` in mm.c). -/
def alloc_mask : Nat := 1

/-- `~(word_t)0xF` as an unsigned 64-bit value (`size_mask` in mm.c). -/
def size_mask : Nat := wordMod - 16

/-- `round_up(size, n) = n * ((size + (n-1)) / n)` with `size_t`
(mod 2^64) addition and multiplication, as in mm.c. -/
def round_up (size n : Nat) : Nat :=
  (n * (((size + (n - 1)) % wordMod) / n)) % wordMod

/-- `pack(size, alloc)`: header/footer word for a block of `size` bytes. -/
def pack (size : Nat) (alloc : Bool) : Nat :=
  if alloc then size ||| alloc_mask else size

/-- `extract_size(word) = word & size_mask`. -/
def extract_size (w : Nat) : Nat := w &&& size_mask

/-- `extract_alloc(word) = (bool)(word & alloc_mask)`. -/
def extract_alloc (w : Nat) : Bool := w % 2 = 1

/-- The allocator state: word-indexed heap contents, heap extent in
words, the `heap_start` cursor, and the free-list head (0 = NULL). -/
structure Heap where
  mem : Nat → Nat
  len : Nat
  heap_start : Nat
  free_list_head : Nat

/-- The all-zero empty heap used before `mm_init` runs. -/
def emptyHeap : Heap := ⟨fun _ => 0, 0, 0, 0⟩

/-- Read the word at index `i`. -/
def readW (s : Heap) (i : Nat) : Nat := s.mem i

/-- Write the word `v` at index `i`. -/
def writeW (s : Heap) (i v : Nat) : Heap :=
  { s with mem := fun j => if j = i then v else s.mem j }

/-- `get_size(block)`: size field of the header at `b`. -/
def get_size (s : Heap) (b : Nat) : Nat := extract_size (readW s b)

/-- `get_alloc(block)`: allocated bit of the header at `b`. -/
def get_alloc (s : Heap) (b : Nat) : Bool := extract_alloc (readW s b)

/-- `write_header(block, size, alloc)`. -/
def write_header (s : Heap) (b size : Nat) (alloc : Bool) : Heap :=
  writeW s b (pack size alloc)

/-- `header_to_footer(block)`: word index of the footer, computed from
the block's current header as `payload + get_size(block) - dsize`
(`payload` is one word past the header and the byte offset is divided
by the word size). -/
def header_to_footer (s : Heap) (b : Nat) : Nat :=
  b + 1 + (get_size s b - dsize) / 8

/-- `write_footer(block, size, alloc)`: writes at the footer position
derived from the block's current header. -/
def write_footer (s : Heap) (b size : Nat) (alloc : Bool) : Heap :=
  writeW s (header_to_footer s b) (pack size alloc)

/-- `find_next(block)`: the next consecutive block on the heap. -/
def find_next (s : Heap) (b : Nat) : Nat := b + get_size s b / 8

/-- `find_prev_footer(block)`: one word before the header. -/
def find_prev_footer (b : Nat) : Nat := b - 1

/-- `find_prev(block)`: previous block, from the previous footer's size. -/
def find_prev (s : Heap) (b : Nat) : Nat :=
  b - extract_size (readW s (find_prev_footer b)) / 8

/-- `header_to_payload(block)`: the payload starts one word past the
header. -/
def header_to_payload (b : Nat) : Nat := b + 1

/-- `payload_to_header(bp)`. -/
def payload_to_header (bp : Nat) : Nat := bp - 1

/-- `insert_block`: LIFO prepend to the free list, as in mm.c.  A free
block stores its `prev` link at word `b+1` and its `next` link at word
`b+2`. -/
def insert_block (s : Heap) (b : Nat) : Heap :=
  if s.free_list_head = 0 then
    let s1 := writeW (writeW s (b + 1) 0) (b + 2) 0
    { s1 with free_list_head := b }
  else
    let s1 := writeW s (b + 1) 0
    let s2 := writeW s1 (b + 2) s.free_list_head
    let s3 := writeW s2 (s.free_list_head + 1) b
    { s3 with free_list_head := b }

/-- `remove_block`: splice a block out of the free list, as in mm.c
(including the early return when the free list is empty; the C code has
no final `else`, so a fall-through leaves the state unchanged). -/
def remove_block (s : Heap) (b : Nat) : Heap :=
  let prev := readW s (b + 1)
  let next := readW s (b + 2)
  if s.free_list_head = 0 then s
  else if prev = 0 ∧ next = 0 then { s with free_list_head := 0 }
  else if prev = 0 ∧ next ≠ 0 then
    { writeW s (next + 1) 0 with free_list_head := next }
  else if next = 0 ∧ prev ≠ 0 then
    writeW s (prev + 2) 0
  else if prev ≠ 0 ∧ next ≠ 0 then
    writeW (writeW s (prev + 2) next) (next + 1) prev
  else s

/-- `find_fit` loop body with explicit fuel; the fuel is irrelevant for
any null-terminated free list shorter than the fuel. -/
def find_fit_aux (s : Heap) (asize : Nat) : Nat → Nat → Option Nat
  | _, 0 => none
  | ptr, fuel + 1 =>
    if ptr = 0 then none
    else if asize ≤ get_size s ptr then some ptr
    else find_fit_aux s asize (readW s (ptr + 2)) fuel

/-- `find_fit(asize)`: first-fit scan of the free list. -/
def find_fit (s : Heap) (asize : Nat) : Option Nat :=
  find_fit_aux s asize s.free_list_head (s.len + 1)

/-- `coalesce_block(block)`: merge with free neighbours, then insert the
survivor into the free list and return it. -/
def coalesce_block (s : Heap) (b : Nat) : Heap × Nat :=
  let size := get_size s b
  let prev_alloc := extract_alloc (readW s (find_prev_footer b))
  let next_alloc := get_alloc s (find_next s b)
  let prev_block := find_prev s b
  let next_block := find_next s b
  let merged : Heap × Nat :=
    if prev_alloc && !next_alloc then
      let size := size + get_size s next_block
      let s1 := remove_block s next_block
      let s2 := write_header s1 b size false
      let s3 := write_footer s2 b size false
      (s3, b)
    else if !prev_alloc && next_alloc then
      let size := size + get_size s prev_block
      let s1 := remove_block s prev_block
      let s2 := write_header s1 prev_block size false
      let s3 := write_footer s2 prev_block size false
      (s3, prev_block)
    else if !prev_alloc && !next_alloc then
      let size := size + get_size s prev_block + get_size s next_block
      let s1 := remove_block s prev_block
      let s2 := remove_block s1 next_block
      let s3 := write_header s2 prev_block size false
      let s4 := write_footer s3 prev_block size false
      (s4, prev_block)
    else
      let s1 := write_header s b size false
      let s2 := write_footer s1 b size false
      (s2, b)
  (insert_block merged.1 merged.2, merged.2)

/-- `split_block(block, asize)`: split off the residue if it is at least
`min_block_size`, then coalesce the residue. -/
def split_block (s : Heap) (b asize : Nat) : Heap :=
  let block_size := get_size s b
  if min_block_size ≤ block_size - asize then
    let s1 := write_header s b asize true
    let s2 := write_footer s1 b asize true
    let block_next := find_next s2 b
    let s3 := write_header s2 block_next (block_size - asize) false
    let s4 := write_footer s3 block_next (block_size - asize) false
    (coalesce_block s4 block_next).1
  else s

/-- `mem_sbrk(bytes)`: the heap provider.  When it grants the request it
returns the previous top-of-heap and grows the heap; newly provided
words keep whatever `mem` already maps them to (uninitialised memory).
The provider is external to `mm.c`; as in the lab's `memlib` it refuses
any growth past its maximum heap, which we take as the full 64-bit
address space (`2^61` words of 8 bytes). -/
def mem_sbrk (s : Heap) (bytes : Nat) (ok : Bool) : Option (Heap × Nat) :=
  if ok ∧ s.len + bytes / 8 ≤ 2 ^ 61 then
    some ({ s with len := s.len + bytes / 8 }, s.len)
  else none

/-- `extend_heap(size)`: grow the heap, lay out the new free block over
the old epilogue, write the new epilogue, and coalesce. -/
def extend_heap (s : Heap) (size : Nat) (ok : Bool) : Heap × Option Nat :=
  let size := round_up size dsize
  match mem_sbrk s size ok with
  | none => (s, none)
  | some (s1, bp) =>
    let block_start := payload_to_header bp
    let s2 := write_header s1 block_start size false
    let s3 := write_footer s2 block_start size false
    let s4 := write_header s3 (find_next s3 block_start) 0 true
    let r := coalesce_block s4 block_start
    (r.1, some r.2)

/-- The normalised block size computed by `mm_malloc` for a request of
`size` bytes (the C additions are `size_t` additions mod 2^64). -/
def asize_of (size : Nat) : Nat :=
  if size ≤ dsize then min_block_size
  else round_up ((size + dsize) % wordMod) dsize

/-- Common tail of `mm_malloc` once `find_fit` has produced `block`:
read the size, unlink, mark allocated, split, return the payload. -/
def mm_malloc_place (s : Heap) (b asize : Nat) : Heap × Option Nat :=
  let newSize := get_size s b
  let s1 := remove_block s b
  let s2 := write_header s1 b newSize true
  let s3 := write_footer s2 b newSize true
  let s4 := split_block s3 b asize
  (s4, some (header_to_payload b))

/-- `mm_malloc(size)`.  Result `none` marks the path on which the C code
dereferences the null `block` returned by the second `find_fit`
(`get_size(NULL)` / `remove_block(NULL)` / `write_header(NULL)`):
undefined behaviour, a crash on a real machine. -/
def mm_malloc (s : Heap) (size : Nat) (ok : Bool) : Option (Heap × Option Nat) :=
  if size = 0 then some (s, none)
  else
    let asize := asize_of size
    match find_fit s asize with
    | some b => some (mm_malloc_place s b asize)
    | none =>
      let extendsize := max chunksize asize
      let s' := (extend_heap s extendsize ok).1
      match find_fit s' asize with
      | some b => some (mm_malloc_place s' b asize)
      | none => none

/-- `mm_free(bp)`: mark the block free and coalesce.  `none` models the
NULL argument, on which `mm_free` returns immediately. -/
def mm_free (s : Heap) (bp : Option Nat) : Heap :=
  match bp with
  | none => s
  | some p =>
    let b := payload_to_header p
    let size := get_size s b
    let s1 := write_header s b size false
    let s2 := write_footer s1 b size false
    (coalesce_block s2 b).1

/-- `mm_init()`: bootstrap the heap (prologue footer, epilogue header,
one `chunksize` extension seeding the free list).  `ok1` and `ok2` are
the provider's answers to the two growth requests; `none` models the
`-1` failure return. -/
def mm_init (ok1 ok2 : Bool) : Option Heap :=
  match mem_sbrk emptyHeap (2 * wsize) ok1 with
  | none => none
  | some (s1, start) =>
    let s2 := writeW s1 start (pack 0 true)
    let s3 := writeW s2 (start + 1) (pack 0 true)
    let s4 := { s3 with heap_start := start + 1 }
    match extend_heap s4 chunksize ok2 with
    | (_, none) => none
    | (s5, some free_block) =>
      let s6 := { s5 with free_list_head := free_block }
      let s7 := writeW s6 (free_block + 1) 0
      let s8 := writeW s7 (free_block + 2) 0
      some s8

/-- The free list read off as a list of block indices (with fuel; the
walk of any null-terminated list shorter than the fuel is exact). -/
def free_walk (s : Heap) : Nat → Nat → List Nat
  | _, 0 => []
  | ptr, fuel + 1 =>
    if ptr = 0 then [] else ptr :: free_walk s (readW s (ptr + 2)) fuel

/-- The blocks of the free list, in list order. -/
def free_list (s : Heap) : List Nat :=
  free_walk s s.free_list_head (s.len + 1)

/-! Concrete states used by the scenario claims. -/

/-- The freshly initialised heap: prologue, one 4096-byte free block,
epilogue; 514 words in total. -/
def heap0 : Heap := (mm_init true true).getD emptyHeap

/-- State and result of `allocate(24)` on the fresh heap. -/
def alloc24 : Heap × Option Nat := (mm_malloc heap0 24 true).getD (emptyHeap, none)

/-- State and result of `allocate(48)` on the fresh heap. -/
def alloc48 : Heap × Option Nat := (mm_malloc heap0 48 true).getD (emptyHeap, none)

/-- State and result of `allocate(4096 − 32 − 16)` on the fresh heap. -/
def alloc4048 : Heap × Option Nat := (mm_malloc heap0 4048 true).getD (emptyHeap, none)

/-- State and result of the subsequent `allocate(16)`. -/
def alloc4048_16 : Heap × Option Nat := (mm_malloc alloc4048.1 16 true).getD (emptyHeap, none)

/-- State and result of `allocate(4096 − 16)` on the fresh heap. -/
def alloc4080 : Heap × Option Nat := (mm_malloc heap0 4080 true).getD (emptyHeap, none)

/-- State and result of the `allocate(16)` following `allocate(4080)`. -/
def alloc4080_16 : Heap × Option Nat := (mm_malloc alloc4080.1 16 true).getD (emptyHeap, none)

/-- A hand-laid heap: prologue; free 32-byte blocks at 1 and 9 linked as
the free list `[1, 9]`; a free 32-byte block at 5 that is not linked;
epilogue at 13. -/
def threeBlocks : Heap :=
  { mem := fun i => List.getD [1, 32, 0, 9, 32, 32, 0, 0, 32, 32, 1, 0, 32, 1] i 0
    len := 14
    heap_start := 1
    free_list_head := 1 }

/-- A hand-laid heap with three free 32-byte blocks at 1, 5, 9 forming
the free list `[1, 5, 9]`. -/
def threeFree : Heap :=
  { mem := fun i => List.getD [1, 32, 0, 5, 32, 32, 1, 9, 32, 32, 5, 0, 32, 1] i 0
    len := 14
    heap_start := 1
    free_list_head := 1 }

/-! Heap-shape observers and the structural invariant. -/

/-- `blocksSeg s j i bs`: starting at word index `i`, the list `bs` of
block start indices tiles the heap up to exactly `j`, each block having a
non-zero 16-byte-multiple size read from its header. -/
def blocksSeg (s : Heap) (j : Nat) : Nat → List Nat → Prop
  | i, [] => i = j
  | i, b :: bs =>
    b = i ∧ get_size s i % 16 = 0 ∧ get_size s i ≠ 0 ∧
      blocksSeg s j (i + get_size s i / 8) bs

/-- The blocks of the heap: from index 1 (first header after the
prologue footer) up to the epilogue header at `s.len - 1`. -/
def heapBlocks (s : Heap) (bs : List Nat) : Prop :=
  blocksSeg s (s.len - 1) 1 bs

/-- `chainSeg s pp c l`: the doubly-linked free list starting at pointer
`c`, whose first node's prev link must read `pp`, consists of the nodes
`l` and is null-terminated. -/
def chainSeg (s : Heap) : Nat → Nat → List Nat → Prop
  | _, c, [] => c = 0
  | pp, c, b :: rest =>
    c = b ∧ b ≠ 0 ∧ readW s (b + 1) = pp ∧ chainSeg s b (readW s (b + 2)) rest

/-- Blocks at least four words apart (so their header, two link words
and footer never alias). -/
def sep4 (a b : Nat) : Prop := a + 4 ≤ b ∨ b + 4 ≤ a

/-- The allocator's structural invariant, with the block list `bs` and
free list `fl` made explicit. -/
structure InvData (s : Heap) (bs fl : List Nat) : Prop where
  hlen : 2 ≤ s.len
  hcap : s.len ≤ 2 ^ 61
  hpro : readW s 0 = 1
  hepi : readW s (s.len - 1) = 1
  hbs : heapBlocks s bs
  hhdr : ∀ b ∈ bs, readW s b = pack (get_size s b) (get_alloc s b)
  hftr : ∀ b ∈ bs, readW s (b + get_size s b / 8 - 1) = readW s b
  hmin : ∀ b ∈ bs, 32 ≤ get_size s b
  hfl : chainSeg s 0 s.free_list_head fl
  hnodup : fl.Nodup
  hsub : ∀ b ∈ fl, b ∈ bs
  hfree : ∀ b ∈ bs, (get_alloc s b = false ↔ b ∈ fl)
  hadj : List.Chain' (fun a b => get_alloc s a = true ∨ get_alloc s b = true) bs

/-- The invariant with the lists hidden. -/
def Inv (s : Heap) : Prop := ∃ bs fl, InvData s bs fl

/-- The configuration just before the final `insert_block` of
`coalesce_block`: the invariant holds except that block `b` is free but
not yet linked in the free list. -/
structure PreInsert (s : Heap) (bs fl : List Nat) (b : Nat) : Prop where
  hlen : 2 ≤ s.len
  hcap : s.len ≤ 2 ^ 61
  hpro : readW s 0 = 1
  hepi : readW s (s.len - 1) = 1
  hbs : heapBlocks s bs
  hhdr : ∀ y ∈ bs, readW s y = pack (get_size s y) (get_alloc s y)
  hftr : ∀ y ∈ bs, readW s (y + get_size s y / 8 - 1) = readW s y
  hmin : ∀ y ∈ bs, 32 ≤ get_size s y
  hfl : chainSeg s 0 s.free_list_head fl
  hnodup : fl.Nodup
  hsub : ∀ y ∈ fl, y ∈ bs
  hbmem : b ∈ bs
  hbal : get_alloc s b = false
  hbnot : b ∉ fl
  hfree : ∀ y ∈ bs, y ≠ b → (get_alloc s y = false ↔ y ∈ fl)
  hadj : List.Chain' (fun x y => get_alloc s x = true ∨
    get_alloc s y = true) bs

/-- The configuration on entry to `coalesce_block b`: the invariant
holds except that `b` is free but unlinked, and adjacent pairs involving
`b` may both be free (exactly what the coalesce repairs). -/
structure PreCoalesce (s : Heap) (bs fl : List Nat) (b : Nat) : Prop where
  hlen : 2 ≤ s.len
  hcap : s.len ≤ 2 ^ 61
  hpro : readW s 0 = 1
  hepi : readW s (s.len - 1) = 1
  hbs : heapBlocks s bs
  hhdr : ∀ y ∈ bs, readW s y = pack (get_size s y) (get_alloc s y)
  hftr : ∀ y ∈ bs, readW s (y + get_size s y / 8 - 1) = readW s y
  hmin : ∀ y ∈ bs, 32 ≤ get_size s y
  hfl : chainSeg s 0 s.free_list_head fl
  hnodup : fl.Nodup
  hsub : ∀ y ∈ fl, y ∈ bs
  hbmem : b ∈ bs
  hbal : get_alloc s b = false
  hbnot : b ∉ fl
  hfree : ∀ y ∈ bs, y ≠ b → (get_alloc s y = false ↔ y ∈ fl)
  hadjw : List.Chain' (fun x y => x = b ∨ y = b ∨ get_alloc s x = true ∨
    get_alloc s y = true) bs

/-- Every block on the free list has both heap neighbours marked
allocated (sentinels read as allocated): the no-two-adjacent-free-blocks
property, anchored at the free list. -/
def free_neighbours_allocated (s : Heap) : Prop :=
  ∀ b ∈ free_list s,
    extract_alloc (readW s (find_prev_footer b)) = true ∧
      get_alloc s (find_next s b) = true

/-- Heap states reachable by public operations with a granting heap
provider: initialisation, allocation of requests whose normalised size
is at least the minimum block size (requests with `n + 31 < 2^64`; for
larger `n` the `size_t` normalisation arithmetic wraps), and release of
a currently-allocated block. -/
inductive Reach : Heap → Prop
  | init : ∀ s, mm_init true true = some s → Reach s
  | malloc : ∀ s n s' r, Reach s → 32 ≤ asize_of n →
      mm_malloc s n true = some (s', r) → Reach s'
  | free : ∀ s bs b, Reach s → heapBlocks s bs → b ∈ bs →
      get_alloc s b = true → Reach (mm_free s (some (b + 1)))

/-! Helper lemmas. -/

/-- Writing back the word already stored at `i` is a no-op. -/
theorem writeW_self (s : Heap) (i : Nat) : writeW s i (readW s i) = s := by
  cases s with
  | mk mem len hs fl =>
    simp only [writeW, readW]
    congr 1
    funext j
    by_cases h : j = i <;> simp [h]

/-! Read/write and state-update simp lemmas. -/

@[simp]
theorem readW_writeW (s : Heap) (i v j : Nat) :
    readW (writeW s i v) j = if j = i then v else readW s j := rfl

@[simp]
theorem readW_mk (m : Nat → Nat) (l hs fl i : Nat) :
    readW (Heap.mk m l hs fl) i = m i := rfl

@[simp]
theorem writeW_mem_apply (s : Heap) (x v j : Nat) :
    (writeW s x v).mem j = if j = x then v else readW s j := rfl

@[simp]
theorem mem_apply_eq_readW (s : Heap) (j : Nat) : s.mem j = readW s j := rfl

theorem readW_writeW_ne (s : Heap) (i v j : Nat) (h : j ≠ i) :
    readW (writeW s i v) j = readW s j := by simp [h]

@[simp]
theorem writeW_len (s : Heap) (i v : Nat) : (writeW s i v).len = s.len := rfl

@[simp]
theorem writeW_head (s : Heap) (i v : Nat) :
    (writeW s i v).free_list_head = s.free_list_head := rfl

@[simp]
theorem readW_set_head (s : Heap) (h j : Nat) :
    readW { s with free_list_head := h } j = readW s j := rfl

@[simp]
theorem len_set_head (s : Heap) (h : Nat) :
    ({ s with free_list_head := h } : Heap).len = s.len := rfl

/-! Bit-level lemmas about `pack`, `extract_size`, `extract_alloc`. -/

theorem even_lor_one (x : Nat) (h : x % 2 = 0) : x ||| 1 = x + 1 := by
  apply Nat.eq_of_testBit_eq
  intro i
  cases i with
  | zero =>
    rw [Nat.testBit_or]
    simp only [Nat.testBit_zero]
    have h1 : (x + 1) % 2 = 1 := by omega
    have h0 : x % 2 ≠ 1 := by omega
    simp [h0, h1]
  | succ i =>
    rw [Nat.testBit_or]
    have h1 : Nat.testBit 1 (i + 1) = false := by
      apply Nat.testBit_lt_two_pow
      have : 2 ≤ 2 ^ (i + 1) := by
        calc 2 = 2 ^ 1 := by norm_num
        _ ≤ 2 ^ (i + 1) := Nat.pow_le_pow_right (by norm_num) (by omega)
      omega
    rw [h1, Bool.or_false, Nat.testBit_succ, Nat.testBit_succ]
    congr 1
    omega

theorem land_mask (x : Nat) (hx : x < 2 ^ 64) : x &&& (2 ^ 64 - 16) = 16 * (x / 16) := by
  have hmask : (2 ^ 64 - 16 : Nat) = (2 ^ 60 - 1) <<< 4 := by
    rw [Nat.shiftLeft_eq]
    norm_num
  have hrhs : 16 * (x / 16) = (x >>> 4) <<< 4 := by
    rw [Nat.shiftLeft_eq, Nat.shiftRight_eq_div_pow]
    norm_num
    ring
  rw [hmask, hrhs]
  apply Nat.eq_of_testBit_eq
  intro i
  rw [Nat.testBit_and, Nat.testBit_shiftLeft, Nat.testBit_shiftLeft,
    Nat.testBit_shiftRight, Nat.testBit_two_pow_sub_one]
  by_cases h4 : 4 ≤ i
  · have e4 : 4 + (i - 4) = i := by omega
    rw [e4]
    by_cases h64 : i < 64
    · have h60 : i - 4 < 60 := by omega
      simp [h4, h60]
    · have h1 : ¬ (i - 4 < 60) := by omega
      have h2 : Nat.testBit x i = false := by
        apply Nat.testBit_lt_two_pow
        calc x < 2 ^ 64 := hx
        _ ≤ 2 ^ i := Nat.pow_le_pow_right (by norm_num) (by omega)
      simp [h1, h2]
  · simp [h4]

theorem pack_false_eq (sz : Nat) : pack sz false = sz := rfl

theorem pack_true_eq (sz : Nat) (h : sz % 16 = 0) : pack sz true = sz + 1 := by
  have h2 : sz % 2 = 0 := by omega
  simp only [pack, alloc_mask, if_pos]
  exact even_lor_one sz h2

theorem extract_size_pack (sz : Nat) (a : Bool) (h : sz % 16 = 0) (hlt : sz < 2 ^ 64) :
    extract_size (pack sz a) = sz := by
  cases a with
  | false =>
    rw [pack_false_eq, extract_size, size_mask, wordMod, land_mask sz hlt]
    omega
  | true =>
    rw [pack_true_eq sz h, extract_size, size_mask, wordMod, land_mask (sz + 1) (by omega)]
    have e : (sz + 1) / 16 = sz / 16 := by omega
    rw [e]
    omega

theorem extract_alloc_pack (sz : Nat) (a : Bool) (h : sz % 16 = 0) :
    extract_alloc (pack sz a) = a := by
  cases a with
  | false =>
    rw [pack_false_eq, extract_alloc]
    simp only [decide_eq_false_iff_not]
    omega
  | true =>
    rw [pack_true_eq sz h, extract_alloc]
    simp only [decide_eq_true_eq]
    omega

theorem extract_size_lt (w : Nat) : extract_size w < 2 ^ 64 := by
  rw [extract_size, size_mask, wordMod]
  have h := Nat.and_le_right (n := w) (m := 2 ^ 64 - 16)
  omega

/-! Arithmetic helpers about sizes. -/

theorem size_div8 (sz : Nat) (h16 : sz % 16 = 0) (h0 : sz ≠ 0) : 2 ≤ sz / 8 := by
  omega

theorem footer_idx (b sz : Nat) (h16 : sz % 16 = 0) (h : 16 ≤ sz) :
    b + 1 + (sz - 16) / 8 = b + sz / 8 - 1 := by
  omega

/-! Lemmas about `blocksSeg`. -/

theorem blocksSeg_le {s : Heap} {j : Nat} {bs : List Nat} :
    ∀ {i : Nat}, blocksSeg s j i bs → i ≤ j := by
  induction bs with
  | nil => intro i h; exact le_of_eq h
  | cons b bs ih =>
    intro i h
    obtain ⟨-, -, -, hrest⟩ := h
    have h2 := ih hrest
    omega

theorem blocksSeg_mem {s : Heap} {j : Nat} {bs : List Nat} :
    ∀ {i : Nat}, blocksSeg s j i bs →
      ∀ b ∈ bs, i ≤ b ∧ b + get_size s b / 8 ≤ j := by
  induction bs with
  | nil => intro i _ b hb; simp at hb
  | cons a bs ih =>
    intro i h b hb
    obtain ⟨ha, h16, h0, hrest⟩ := h
    subst ha
    rcases List.mem_cons.mp hb with hba | hb'
    · subst hba
      exact ⟨le_rfl, blocksSeg_le hrest⟩
    · have h2 := ih hrest b hb'
      omega

theorem blocksSeg_pairwise {s : Heap} {j : Nat} {bs : List Nat} :
    ∀ {i : Nat}, blocksSeg s j i bs →
      List.Pairwise (fun a b => a + get_size s a / 8 ≤ b) bs := by
  induction bs with
  | nil => intro _ _; exact List.Pairwise.nil
  | cons a bs ih =>
    intro i h
    obtain ⟨ha, h16, h0, hrest⟩ := h
    subst ha
    refine List.Pairwise.cons (fun b hb => ?_) (ih hrest)
    exact (blocksSeg_mem hrest b hb).1

theorem blocksSeg_len_bound {s : Heap} {j : Nat} {bs : List Nat} :
    ∀ {i : Nat}, blocksSeg s j i bs → i + 2 * bs.length ≤ j := by
  induction bs with
  | nil =>
    intro i h
    have e : i = j := h
    simp only [List.length_nil]
    omega
  | cons a bs ih =>
    intro i h
    obtain ⟨ha, h16, h0, hrest⟩ := h
    have h2 := ih hrest
    simp only [List.length_cons]
    omega

theorem blocksSeg_append {s : Heap} {j : Nat} {l1 l2 : List Nat} :
    ∀ {i : Nat}, blocksSeg s j i (l1 ++ l2) ↔
      ∃ m, blocksSeg s m i l1 ∧ blocksSeg s j m l2 := by
  induction l1 with
  | nil =>
    intro i
    constructor
    · intro h; exact ⟨i, rfl, h⟩
    · rintro ⟨m, hm, h2⟩
      have : i = m := hm
      subst this
      exact h2
  | cons a l1 ih =>
    intro i
    simp only [List.cons_append]
    show (a = i ∧ _ ∧ _ ∧ blocksSeg s j _ (l1 ++ l2)) ↔ _
    rw [ih]
    constructor
    · rintro ⟨ha, h16, h0, m, hseg1, hseg2⟩
      exact ⟨m, ⟨ha, h16, h0, hseg1⟩, hseg2⟩
    · rintro ⟨m, ⟨ha, h16, h0, hseg1⟩, hseg2⟩
      exact ⟨ha, h16, h0, m, hseg1, hseg2⟩

theorem blocksSeg_congr {s s' : Heap} {j : Nat} {bs : List Nat}
    (hget : ∀ b ∈ bs, get_size s' b = get_size s b) :
    ∀ {i : Nat}, blocksSeg s j i bs → blocksSeg s' j i bs := by
  induction bs with
  | nil => intro _ h; exact h
  | cons a bs ih =>
    intro i h
    obtain ⟨ha, h16, h0, hrest⟩ := h
    subst ha
    have hgi := hget a (List.mem_cons_self a bs)
    refine ⟨rfl, by rw [hgi]; exact h16, by rw [hgi]; exact h0, ?_⟩
    rw [hgi]
    exact ih (fun b hb => hget b (List.mem_cons_of_mem _ hb)) hrest

theorem blocksSeg_nodup {s : Heap} {j : Nat} {bs : List Nat} :
    ∀ {i : Nat}, blocksSeg s j i bs → bs.Nodup := by
  induction bs with
  | nil => intro _ _; exact List.nodup_nil
  | cons a bs ih =>
    intro i h
    obtain ⟨ha, h16, h0, hrest⟩ := h
    subst ha
    refine List.nodup_cons.mpr ⟨fun hmem => ?_, ih hrest⟩
    have h2 := (blocksSeg_mem hrest a hmem).1
    omega

/-! Lemmas about `chainSeg`. -/

theorem chainSeg_ne_zero {s : Heap} {fl : List Nat} :
    ∀ {pp c : Nat}, chainSeg s pp c fl → ∀ b ∈ fl, b ≠ 0 := by
  induction fl with
  | nil => intro _ _ _ b hb; simp at hb
  | cons a fl ih =>
    intro pp c h b hb
    obtain ⟨-, ha0, -, hrest⟩ := h
    rcases List.mem_cons.mp hb with hba | hb'
    · subst hba; exact ha0
    · exact ih hrest b hb'

theorem chainSeg_congr {s s' : Heap} {fl : List Nat}
    (hc : ∀ b ∈ fl, readW s' (b + 1) = readW s (b + 1) ∧
      readW s' (b + 2) = readW s (b + 2)) :
    ∀ {pp c : Nat}, chainSeg s pp c fl → chainSeg s' pp c fl := by
  induction fl with
  | nil => intro _ _ h; exact h
  | cons b fl ih =>
    intro pp c h
    obtain ⟨hcb, hb0, hprev, hrest⟩ := h
    have hb := hc b (List.mem_cons_self b fl)
    refine ⟨hcb, hb0, by rw [hb.1]; exact hprev, ?_⟩
    rw [hb.2]
    exact ih (fun x hx => hc x (List.mem_cons_of_mem _ hx)) hrest

/-! Branch characterisations of `remove_block` and `insert_block`. -/

theorem remove_block_eq (s : Heap) (b : Nat) (hh : s.free_list_head ≠ 0) :
    remove_block s b =
      if readW s (b + 1) = 0 then
        (if readW s (b + 2) = 0 then { s with free_list_head := 0 }
         else { writeW s (readW s (b + 2) + 1) 0 with
                  free_list_head := readW s (b + 2) })
      else
        (if readW s (b + 2) = 0 then writeW s (readW s (b + 1) + 2) 0
         else writeW (writeW s (readW s (b + 1) + 2) (readW s (b + 2)))
                (readW s (b + 2) + 1) (readW s (b + 1))) := by
  by_cases h1 : readW s (b + 1) = 0 <;> by_cases h2 : readW s (b + 2) = 0 <;>
    simp [remove_block, hh, h1, h2]

theorem remove_block_len (s : Heap) (b : Nat) :
    (remove_block s b).len = s.len := by
  by_cases h0 : s.free_list_head = 0 <;> by_cases h1 : readW s (b + 1) = 0 <;>
    by_cases h2 : readW s (b + 2) = 0 <;> simp [remove_block, h0, h1, h2]

theorem remove_block_frame (s : Heap) (b i : Nat)
    (h1 : readW s (b + 1) ≠ 0 → i ≠ readW s (b + 1) + 2)
    (h2 : readW s (b + 2) ≠ 0 → i ≠ readW s (b + 2) + 1) :
    readW (remove_block s b) i = readW s i := by
  by_cases g0 : s.free_list_head = 0 <;> by_cases g1 : readW s (b + 1) = 0 <;>
    by_cases g2 : readW s (b + 2) = 0 <;>
      simp [remove_block, g0, g1, g2, h1, h2]

theorem remove_block_head (s : Heap) (b : Nat) (hh : s.free_list_head ≠ 0) :
    (remove_block s b).free_list_head =
      if readW s (b + 1) = 0 then readW s (b + 2) else s.free_list_head := by
  rw [remove_block_eq s b hh]
  by_cases h1 : readW s (b + 1) = 0 <;> by_cases h2 : readW s (b + 2) = 0 <;>
    simp [h1, h2]

theorem insert_block_len (s : Heap) (b : Nat) :
    (insert_block s b).len = s.len := by
  by_cases h : s.free_list_head = 0 <;> simp [insert_block, h]

theorem insert_block_head (s : Heap) (b : Nat) :
    (insert_block s b).free_list_head = b := by
  by_cases h : s.free_list_head = 0 <;> simp [insert_block, h]

theorem insert_block_frame (s : Heap) (b i : Nat)
    (h1 : i ≠ b + 1) (h2 : i ≠ b + 2)
    (h3 : s.free_list_head ≠ 0 → i ≠ s.free_list_head + 1) :
    readW (insert_block s b) i = readW s i := by
  by_cases h : s.free_list_head = 0 <;>
    simp [insert_block, h, h1, h2, h3]

/-! Free-list splice lemmas. -/

theorem getLastD_mem_cons (l : List Nat) (a : Nat) : l.getLastD a ∈ a :: l := by
  induction l generalizing a with
  | nil => simp [List.getLastD]
  | cons x l ih =>
    rw [List.getLastD_cons]
    rcases List.mem_cons.mp (ih x) with h | h
    · rw [h]
      exact List.mem_cons_of_mem a (List.mem_cons_self x l)
    · exact List.mem_cons_of_mem a (List.mem_cons_of_mem x h)

theorem getLastD_mem_of_ne_nil (l : List Nat) (a : Nat) (h : l ≠ []) :
    l.getLastD a ∈ l := by
  cases l with
  | nil => exact absurd rfl h
  | cons x l =>
    rw [List.getLastD_cons]
    rcases List.mem_cons.mp (getLastD_mem_cons l x) with h1 | h1
    · rw [h1]
      exact List.mem_cons_self x l
    · exact List.mem_cons_of_mem x h1

theorem chainSeg_suffix_at (s : Heap) (b : Nat) (l2 : List Nat) :
    ∀ (l : List Nat) (pp c : Nat), chainSeg s pp c (l ++ b :: l2) →
      b ≠ 0 ∧ readW s (b + 1) = l.getLastD pp ∧
        chainSeg s b (readW s (b + 2)) l2 := by
  intro l
  induction l with
  | nil =>
    intro pp c h
    obtain ⟨-, hb0, hp, hr⟩ := h
    exact ⟨hb0, by simpa [List.getLastD] using hp, hr⟩
  | cons a l ih =>
    intro pp c h
    obtain ⟨-, -, -, hrest⟩ := h
    have h2 := ih a (readW s (a + 2)) hrest
    rw [List.getLastD_cons]
    exact h2

theorem sep4_ne {a b : Nat} (h : sep4 a b) : a ≠ b := by
  rcases h with h | h <;> omega

/-- Core splice lemma: removing `b` from a well-separated chain yields
the chain without `b`; the new entry pointer is the old one unless `b`
was at the front, in which case it is `b`'s next link. -/
theorem remove_chain_aux (s : Heap) (b : Nat) (l2 : List Nat) :
    ∀ (l1 : List Nat) (pp c : Nat),
      chainSeg s pp c (l1 ++ b :: l2) →
      List.Pairwise sep4 (l1 ++ b :: l2) →
      (∀ x ∈ l1 ++ b :: l2, pp = 0 ∨ sep4 pp x) →
      s.free_list_head ≠ 0 →
      chainSeg (remove_block s b) pp
        (if l1 = [] then readW s (b + 2) else c) (l1 ++ l2) := by
  intro l1
  induction l1 with
  | nil =>
    intro pp c h hsep hpp hh
    obtain ⟨hcb, hb0, hprev, hrest⟩ := h
    simp only [List.nil_append, if_pos rfl] at *
    cases l2 with
    | nil =>
      have hnb : readW s (b + 2) = 0 := hrest
      exact hnb
    | cons n l2' =>
      obtain ⟨hnb, hn0, hnprev, hrest2⟩ := hrest
      have hsepn : ∀ x ∈ l2', sep4 n x := by
        intro x hx
        exact List.rel_of_pairwise_cons hsep.of_cons hx
      by_cases hpp0 : pp = 0
      · have hpb : readW s (b + 1) = 0 := by rw [hprev, hpp0]
        have e : remove_block s b =
            { writeW s (n + 1) 0 with free_list_head := n } := by
          rw [remove_block_eq s b hh, if_pos hpb, hnb, if_neg hn0]
        rw [e, hnb]
        refine ⟨rfl, hn0, ?_, ?_⟩
        · simp [hpp0]
        · have hn2 : readW { writeW s (n + 1) 0 with free_list_head := n }
              (n + 2) = readW s (n + 2) := by simp
          rw [hn2]
          refine chainSeg_congr (fun x hx => ?_) hrest2
          have hs := hsepn x hx
          have hx1 : x + 1 ≠ n + 1 := by rcases hs with h | h <;> omega
          have hx2 : x + 2 ≠ n + 1 := by rcases hs with h | h <;> omega
          simp [hx1, hx2]
      · have hpb : readW s (b + 1) = pp := hprev
        have hppn : sep4 pp n := by
          rcases hpp n (by simp) with h | h
          · exact absurd h hpp0
          · exact h
        have e : remove_block s b =
            writeW (writeW s (pp + 2) n) (n + 1) pp := by
          rw [remove_block_eq s b hh, hpb, if_neg hpp0, hnb, if_neg hn0]
        rw [e, hnb]
        have hne1 : n + 1 ≠ pp + 2 := by rcases hppn with h | h <;> omega
        refine ⟨rfl, hn0, by simp, ?_⟩
        have hn2 : readW (writeW (writeW s (pp + 2) n) (n + 1) pp) (n + 2) =
            readW s (n + 2) := by
          have g1 : n + 2 ≠ n + 1 := by omega
          have g2 : n + 2 ≠ pp + 2 := by
            rcases hppn with h | h <;> omega
          simp [g1, g2]
        rw [hn2]
        refine chainSeg_congr (fun x hx => ?_) hrest2
        have hs := hsepn x hx
        have hsp : sep4 pp x := by
          rcases hpp x (by simp [hx]) with h | h
          · exact absurd h hpp0
          · exact h
        have hx1 : x + 1 ≠ n + 1 := by rcases hs with h | h <;> omega
        have hx2 : x + 2 ≠ n + 1 := by rcases hs with h | h <;> omega
        have hx3 : x + 1 ≠ pp + 2 := by rcases hsp with h | h <;> omega
        have hx4 : x + 2 ≠ pp + 2 := by rcases hsp with h | h <;> omega
        simp [hx1, hx2, hx3, hx4]
  | cons a l1' ih =>
    intro pp c h hsep hpp hh
    obtain ⟨hca, ha0, haprev, hrest⟩ := h
    have hsuf := chainSeg_suffix_at s b l2 l1' a (readW s (a + 2)) hrest
    have hsep' : List.Pairwise sep4 (l1' ++ b :: l2) := hsep.of_cons
    have hppa : ∀ x ∈ l1' ++ b :: l2, a = 0 ∨ sep4 a x := fun x hx =>
      Or.inr (List.rel_of_pairwise_cons hsep hx)
    have IH := ih a (readW s (a + 2)) hrest hsep' hppa hh
    have hnbmem : readW s (b + 2) ≠ 0 → ∃ n l2', l2 = n :: l2' ∧ readW s (b + 2) = n := by
      intro hnb0
      cases l2 with
      | nil => exact absurd hsuf.2.2 hnb0
      | cons n l2' => exact ⟨n, l2', rfl, hsuf.2.2.1⟩
    have hpbmem : readW s (b + 1) ∈ a :: l1' := by
      rw [hsuf.2.1]
      exact getLastD_mem_cons l1' a
    simp only [List.cons_append, if_neg (List.cons_ne_nil a l1')]
    refine ⟨hca, ha0, ?_, ?_⟩
    · rw [remove_block_frame s b (a + 1) ?_ ?_]
      · exact haprev
      · intro hpb0
        rcases List.mem_cons.mp hpbmem with hpa | hpl
        · rw [hpa]; omega
        · have hs : sep4 a (readW s (b + 1)) :=
            List.rel_of_pairwise_cons hsep (by simp [List.mem_append.mpr (Or.inl hpl)])
          rcases hs with h | h <;> omega
      · intro hnb0
        obtain ⟨n, l2', rfl, hn⟩ := hnbmem hnb0
        have hs : sep4 a n :=
          List.rel_of_pairwise_cons hsep (by simp)
        rw [hn]
        rcases hs with h | h <;> omega
    · have IHgoal : readW (remove_block s b) (a + 2) =
          (if l1' = [] then readW s (b + 2) else readW s (a + 2)) := by
        cases l1' with
        | nil =>
          have hpb : readW s (b + 1) = a := by simpa [List.getLastD] using hsuf.2.1
          by_cases hnb0 : readW s (b + 2) = 0
          · have e : remove_block s b = writeW s (a + 2) 0 := by
              rw [remove_block_eq s b hh, hpb, if_neg ha0, hnb0, if_pos rfl]
            rw [e, if_pos rfl, hnb0]
            simp
          · obtain ⟨n, l2', hl2, hn⟩ := hnbmem hnb0
            have e : remove_block s b =
                writeW (writeW s (a + 2) (readW s (b + 2))) (readW s (b + 2) + 1) a := by
              rw [remove_block_eq s b hh, hpb, if_neg ha0, if_neg hnb0]
            rw [e, if_pos rfl]
            have hs : sep4 a n := by
              apply List.rel_of_pairwise_cons hsep
              simp [hl2]
            have g1 : a + 2 ≠ readW s (b + 2) + 1 := by
              rw [hn]
              rcases hs with h | h <;> omega
            simp [g1]
        | cons x l1'' =>
          rw [if_neg (List.cons_ne_nil x l1'')]
          apply remove_block_frame
          · intro hpb0
            have hpbl : readW s (b + 1) ∈ x :: l1'' := by
              rw [hsuf.2.1]
              exact getLastD_mem_of_ne_nil _ a (List.cons_ne_nil x l1'')
            have hs : sep4 a (readW s (b + 1)) :=
              List.rel_of_pairwise_cons hsep (List.mem_append.mpr (Or.inl hpbl))
            rcases hs with h | h <;> omega
          · intro hnb0
            obtain ⟨n, l2', rfl, hn⟩ := hnbmem hnb0
            have hs : sep4 a n :=
              List.rel_of_pairwise_cons hsep (by simp)
            rw [hn]
            rcases hs with h | h <;> omega
      rw [IHgoal]
      exact IH

theorem chainSeg_head_ne_zero {s : Heap} {pp c : Nat} {x : Nat} {xs : List Nat}
    (h : chainSeg s pp c (x :: xs)) : c ≠ 0 := by
  obtain ⟨hcx, hx0, -, -⟩ := h
  rw [hcx]
  exact hx0

/-- Removal at the free-list level: removing a member of a
well-separated free list leaves the free list without it. -/
theorem remove_block_fl (s : Heap) (l1 l2 : List Nat) (b : Nat)
    (hfl : chainSeg s 0 s.free_list_head (l1 ++ b :: l2))
    (hsep : List.Pairwise sep4 (l1 ++ b :: l2)) :
    chainSeg (remove_block s b) 0 (remove_block s b).free_list_head (l1 ++ l2) := by
  have hh : s.free_list_head ≠ 0 := by
    cases l1 with
    | nil => exact chainSeg_head_ne_zero hfl
    | cons x l1' => exact chainSeg_head_ne_zero hfl
  have hpp : ∀ x ∈ l1 ++ b :: l2, (0 : Nat) = 0 ∨ sep4 0 x := fun x _ => Or.inl rfl
  have haux := remove_chain_aux s b l2 l1 0 s.free_list_head hfl hsep hpp hh
  have hsuf := chainSeg_suffix_at s b l2 l1 0 s.free_list_head hfl
  have hhead : (remove_block s b).free_list_head =
      (if l1 = [] then readW s (b + 2) else s.free_list_head) := by
    rw [remove_block_head s b hh]
    cases l1 with
    | nil =>
      have hpb : readW s (b + 1) = 0 := by simpa [List.getLastD] using hsuf.2.1
      simp [hpb]
    | cons x l1' =>
      have hpb : readW s (b + 1) ∈ x :: l1' := by
        rw [hsuf.2.1]
        exact getLastD_mem_of_ne_nil _ 0 (List.cons_ne_nil x l1')
      have hpb0 : readW s (b + 1) ≠ 0 :=
        chainSeg_ne_zero hfl _ (List.mem_append.mpr (Or.inl hpb))
      simp [hpb0]
  rw [hhead]
  exact haux

/-- The frame of a free-list removal: only link words of free-list
members are written. -/
theorem remove_block_fl_frame (s : Heap) (l1 l2 : List Nat) (b i : Nat)
    (hfl : chainSeg s 0 s.free_list_head (l1 ++ b :: l2))
    (hi : ∀ x ∈ l1 ++ b :: l2, i ≠ x + 1 ∧ i ≠ x + 2) :
    readW (remove_block s b) i = readW s i := by
  have hsuf := chainSeg_suffix_at s b l2 l1 0 s.free_list_head hfl
  apply remove_block_frame
  · intro hpb0
    have hpb : readW s (b + 1) ∈ l1 ++ b :: l2 := by
      rcases List.mem_cons.mp (hsuf.2.1 ▸ getLastD_mem_cons l1 0) with h | h
      · exact absurd h hpb0
      · exact List.mem_append.mpr (Or.inl h)
    exact (hi _ hpb).2
  · intro hnb0
    cases l2 with
    | nil => exact absurd hsuf.2.2 hnb0
    | cons n l2' =>
      have hn : readW s (b + 2) = n := hsuf.2.2.1
      rw [hn]
      exact (hi n (by simp)).1

/-- Insertion at the free-list level: prepending a fresh well-separated
block to the free list. -/
theorem insert_block_fl (s : Heap) (fl : List Nat) (b : Nat)
    (hfl : chainSeg s 0 s.free_list_head fl)
    (hsep : List.Pairwise sep4 fl)
    (hb0 : b ≠ 0)
    (hbsep : ∀ x ∈ fl, sep4 b x) :
    chainSeg (insert_block s b) 0 (insert_block s b).free_list_head (b :: fl) := by
  rw [insert_block_head]
  by_cases hh : s.free_list_head = 0
  · have hfl0 : fl = [] := by
      cases fl with
      | nil => rfl
      | cons x xs => exact absurd hh (chainSeg_head_ne_zero hfl)
    subst hfl0
    have e : insert_block s b =
        { writeW (writeW s (b + 1) 0) (b + 2) 0 with free_list_head := b } := by
      simp [insert_block, hh]
    rw [e]
    refine ⟨rfl, hb0, ?_, ?_⟩
    · simp
    · show readW _ (b + 2) = 0
      simp
  · obtain ⟨h, fl', rfl⟩ : ∃ h fl', fl = h :: fl' := by
      cases fl with
      | nil => exact absurd (show s.free_list_head = 0 from hfl) hh
      | cons x xs => exact ⟨x, xs, rfl⟩
    obtain ⟨hch, hh0, hhprev, hrest⟩ := hfl
    have hsbh : sep4 b h := hbsep h (by simp)
    have e : insert_block s b =
        { writeW (writeW (writeW s (b + 1) 0) (b + 2) s.free_list_head)
            (s.free_list_head + 1) b with free_list_head := b } := by
      simp [insert_block, hh]
    rw [e, hch]
    have g1 : b + 1 ≠ h + 1 := by rcases hsbh with h1 | h1 <;> omega
    have g2 : b + 2 ≠ h + 1 := by rcases hsbh with h1 | h1 <;> omega
    have g3 : b + 1 ≠ b + 2 := by omega
    have gbh : b ≠ h := sep4_ne hsbh
    refine ⟨rfl, hb0, ?_, ?_⟩
    · simp [gbh]
    · have hb2 : readW { writeW (writeW (writeW s (b + 1) 0) (b + 2) h)
          (h + 1) b with free_list_head := b } (b + 2) = h := by
        have g4 : b + 2 ≠ h + 1 := g2
        simp [g4]
      rw [hb2]
      refine ⟨rfl, hh0, ?_, ?_⟩
      · have g5 : h + 1 ≠ h + 1 → False := fun f => f rfl
        simp
      · have hs2 : readW { writeW (writeW (writeW s (b + 1) 0) (b + 2) h)
            (h + 1) b with free_list_head := b } (h + 2) = readW s (h + 2) := by
          have g6 : h + 2 ≠ h + 1 := by omega
          have g7 : h + 2 ≠ b + 2 := by rcases hsbh with h1 | h1 <;> omega
          have g8 : h + 2 ≠ b + 1 := by rcases hsbh with h1 | h1 <;> omega
          simp [g6, g7, g8]
        rw [hs2]
        refine chainSeg_congr (fun x hx => ?_) hrest
        have hsx : sep4 b x := hbsep x (by simp [hx])
        have hshx : sep4 h x := List.rel_of_pairwise_cons hsep hx
        have k1 : x + 1 ≠ h + 1 := by rcases hshx with h1 | h1 <;> omega
        have k2 : x + 2 ≠ h + 1 := by rcases hshx with h1 | h1 <;> omega
        have k3 : x + 1 ≠ b + 1 := by rcases hsx with h1 | h1 <;> omega
        have k4 : x + 2 ≠ b + 1 := by rcases hsx with h1 | h1 <;> omega
        have k5 : x + 1 ≠ b + 2 := by rcases hsx with h1 | h1 <;> omega
        have k6 : x + 2 ≠ b + 2 := by rcases hsx with h1 | h1 <;> omega
        simp [k1, k2, k3, k4, k5, k6]

/-! Derived facts from the invariant. -/

theorem pairwise_or {R : Nat → Nat → Prop} :
    ∀ {l : List Nat}, List.Pairwise R l →
      ∀ x ∈ l, ∀ y ∈ l, x = y ∨ R x y ∨ R y x := by
  intro l h
  induction h with
  | nil => intro x hx; simp at hx
  | cons hhead htail ih =>
    intro x hx y hy
    rcases List.mem_cons.mp hx with rfl | hx' <;>
      rcases List.mem_cons.mp hy with h2 | h2
    · exact Or.inl h2.symm
    · exact Or.inr (Or.inl (hhead y h2))
    · refine Or.inr (Or.inr ?_)
      rw [h2]
      exact hhead x hx'
    · exact ih x hx' y h2

theorem length_le_of_nodup_subset {l l' : List Nat}
    (h1 : l.Nodup) (h2 : ∀ x ∈ l, x ∈ l') : l.length ≤ l'.length := by
  have e : l.toFinset.card = l.length := List.toFinset_card_of_nodup h1
  have m : l.toFinset ⊆ l'.toFinset := by
    intro x hx
    simp only [List.mem_toFinset] at hx ⊢
    exact h2 x hx
  have hc := Finset.card_le_card m
  have hb := List.toFinset_card_le l'
  omega

theorem bs_pos_of {s : Heap} {bs : List Nat} (hbs : heapBlocks s bs) :
    ∀ b ∈ bs, 1 ≤ b ∧ b + get_size s b / 8 ≤ s.len - 1 :=
  fun b hb => blocksSeg_mem hbs b hb

theorem bs_disjoint_of {s : Heap} {bs : List Nat} (hbs : heapBlocks s bs) :
    ∀ x ∈ bs, ∀ y ∈ bs, x ≠ y →
      x + get_size s x / 8 ≤ y ∨ y + get_size s y / 8 ≤ x := by
  intro x hx y hy hne
  rcases pairwise_or (blocksSeg_pairwise hbs) x hx y hy with he | h2 | h2
  · exact absurd he hne
  · exact Or.inl h2
  · exact Or.inr h2

theorem sep4_fl_of {s : Heap} {bs fl : List Nat} (hbs : heapBlocks s bs)
    (hnodup : fl.Nodup) (hsub : ∀ x ∈ fl, x ∈ bs)
    (hminfl : ∀ x ∈ fl, 32 ≤ get_size s x) :
    List.Pairwise sep4 fl := by
  refine List.Nodup.pairwise_of_forall_ne hnodup ?_
  intro x hx y hy hne
  have hx4 : 4 ≤ get_size s x / 8 := by
    have := hminfl x hx
    omega
  have hy4 : 4 ≤ get_size s y / 8 := by
    have := hminfl y hy
    omega
  rcases bs_disjoint_of hbs x (hsub x hx) y (hsub y hy) hne with h2 | h2
  · exact Or.inl (by omega)
  · exact Or.inr (by omega)

theorem fl_len_of {s : Heap} {bs fl : List Nat} (hbs : heapBlocks s bs)
    (hlen : 2 ≤ s.len) (hnodup : fl.Nodup) (hsub : ∀ x ∈ fl, x ∈ bs) :
    fl.length < s.len + 1 := by
  have h1 := length_le_of_nodup_subset hnodup hsub
  have h2 := blocksSeg_len_bound hbs
  omega

theorem InvData.fl_free {s : Heap} {bs fl : List Nat} (h : InvData s bs fl) :
    ∀ x ∈ fl, get_alloc s x = false :=
  fun x hx => (h.hfree x (h.hsub x hx)).mpr hx

theorem InvData.fl_min {s : Heap} {bs fl : List Nat} (h : InvData s bs fl) :
    ∀ x ∈ fl, 32 ≤ get_size s x :=
  fun x hx => h.hmin x (h.hsub x hx)

theorem InvData.sep4_fl {s : Heap} {bs fl : List Nat} (h : InvData s bs fl) :
    List.Pairwise sep4 fl :=
  sep4_fl_of h.hbs h.hnodup h.hsub h.fl_min

theorem InvData.fl_len {s : Heap} {bs fl : List Nat} (h : InvData s bs fl) :
    fl.length < s.len + 1 :=
  fl_len_of h.hbs h.hlen h.hnodup h.hsub

/-- Link words of free-list blocks never alias a block header, a block
footer, or a sentinel word. -/
theorem link_cell_avoid {s : Heap} {bs fl : List Nat} (hbs : heapBlocks s bs)
    (hsub : ∀ x ∈ fl, x ∈ bs) (hminfl : ∀ x ∈ fl, 32 ≤ get_size s x)
    (hminbs : ∀ y ∈ bs, 32 ≤ get_size s y) :
    ∀ x ∈ fl, ∀ k, k = 1 ∨ k = 2 →
      (∀ y ∈ bs, y ≠ x + k ∧ y + get_size s y / 8 - 1 ≠ x + k) ∧
        0 ≠ x + k ∧ s.len - 1 ≠ x + k := by
  intro x hx k hk
  have hxb := hsub x hx
  have hx4 : 4 ≤ get_size s x / 8 := by
    have := hminfl x hx
    omega
  have hxpos := bs_pos_of hbs x hxb
  refine ⟨fun y hy => ?_, by omega, ?_⟩
  · have hy4 : 4 ≤ get_size s y / 8 := by
      have := hminbs y hy
      omega
    by_cases hxy : y = x
    · subst hxy
      omega
    · rcases bs_disjoint_of hbs y hy x hxb hxy with h2 | h2 <;> omega
  · omega

/-! `find_fit` returns a member of the free list that fits. -/

theorem find_fit_aux_mem (s : Heap) (asize : Nat) :
    ∀ (fuel : Nat) (l : List Nat) (pp c : Nat), chainSeg s pp c l →
      l.length < fuel → ∀ b, find_fit_aux s asize c fuel = some b →
        b ∈ l ∧ asize ≤ get_size s b := by
  intro fuel
  induction fuel with
  | zero =>
    intro l pp c _ _ b hf
    simp [find_fit_aux] at hf
  | succ fuel ih =>
    intro l pp c h hl b hf
    cases l with
    | nil =>
      have hc : c = 0 := h
      rw [find_fit_aux, if_pos hc] at hf
      exact absurd hf (by simp)
    | cons x l' =>
      obtain ⟨hcx, hx0, hxp, hrest⟩ := h
      rw [hcx] at hf
      rw [find_fit_aux, if_neg hx0] at hf
      by_cases hfit : asize ≤ get_size s x
      · rw [if_pos hfit] at hf
        have : x = b := by simpa using hf
        subst this
        exact ⟨List.mem_cons_self x l', hfit⟩
      · rw [if_neg hfit] at hf
        have hl' : l'.length < fuel := by
          simp only [List.length_cons] at hl
          omega
        have h2 := ih l' x (readW s (x + 2)) hrest hl' b hf
        exact ⟨List.mem_cons_of_mem x h2.1, h2.2⟩

theorem find_fit_mem {s : Heap} {asize b : Nat} {fl : List Nat}
    (hfl : chainSeg s 0 s.free_list_head fl) (hlen : fl.length < s.len + 1)
    (hf : find_fit s asize = some b) : b ∈ fl ∧ asize ≤ get_size s b :=
  find_fit_aux_mem s asize (s.len + 1) fl 0 s.free_list_head hfl hlen b hf

/-! Geometry of block cells. -/

theorem span_cells_ne_of {s : Heap} {bs : List Nat} (hbs : heapBlocks s bs)
    {x y : Nat} (hx : x ∈ bs) (hy : y ∈ bs) (hne : x ≠ y) {c d : Nat}
    (hc1 : x ≤ c) (hc2 : c < x + get_size s x / 8)
    (hd1 : y ≤ d) (hd2 : d < y + get_size s y / 8) : c ≠ d := by
  rcases bs_disjoint_of hbs x hx y hy hne with h2 | h2 <;> omega

theorem cell_pos_of {s : Heap} {bs : List Nat} (hbs : heapBlocks s bs)
    {x c : Nat} (hx : x ∈ bs) (hc1 : x ≤ c) : 1 ≤ c := by
  have := (bs_pos_of hbs x hx).1
  omega

theorem cell_lt_epi_of {s : Heap} {bs : List Nat} (hbs : heapBlocks s bs)
    {x c : Nat} (hx : x ∈ bs) (hc2 : c < x + get_size s x / 8) :
    c < s.len - 1 := by
  have := (bs_pos_of hbs x hx).2
  omega

theorem blocksSeg_mem_size {s : Heap} {j : Nat} {bs : List Nat} :
    ∀ {i : Nat}, blocksSeg s j i bs →
      ∀ b ∈ bs, get_size s b % 16 = 0 ∧ get_size s b ≠ 0 := by
  induction bs with
  | nil => intro _ _ b hb; simp at hb
  | cons a bs ih =>
    intro i h b hb
    obtain ⟨ha, h16, h0, hrest⟩ := h
    rcases List.mem_cons.mp hb with hba | hb'
    · rw [hba, ha]
      exact ⟨h16, h0⟩
    · exact ih hrest b hb'

theorem size_facts_of {s : Heap} {bs : List Nat} (hbs : heapBlocks s bs)
    (hmin : ∀ y ∈ bs, 32 ≤ get_size s y) {x : Nat} (hx : x ∈ bs) :
    32 ≤ get_size s x ∧ get_size s x % 16 = 0 ∧ get_size s x < 2 ^ 64 :=
  ⟨hmin x hx, (blocksSeg_mem_size hbs x hx).1, extract_size_lt (readW s x)⟩

theorem chain'_mem_imp {R R' : Nat → Nat → Prop} :
    ∀ {l : List Nat}, List.Chain' R l →
      (∀ a ∈ l, ∀ b ∈ l, R a b → R' a b) → List.Chain' R' l := by
  intro l
  induction l with
  | nil => intro _ _; exact List.chain'_nil
  | cons a l ih =>
    intro h himp
    cases l with
    | nil => simp
    | cons b l' =>
      obtain ⟨hab, htail⟩ := List.chain'_cons.mp h
      refine List.chain'_cons.mpr ⟨?_, ?_⟩
      · exact himp a (by simp) b (by simp) hab
      · exact ih htail (fun x hx y hy hr =>
          himp x (List.mem_cons_of_mem a hx) y (List.mem_cons_of_mem a hy) hr)

/-- The parse successor of a block: the next list entry starts exactly
at `b + size/8`, and if `b` is last then `b + size/8` is the parse
end. -/
theorem blocksSeg_succ {s : Heap} {j i b : Nat} {m1 m2 : List Nat}
    (h : blocksSeg s j i (m1 ++ b :: m2)) :
    (m2 = [] → b + get_size s b / 8 = j) ∧
      (∀ c m2', m2 = c :: m2' → c = b + get_size s b / 8) := by
  obtain ⟨m, hm1, hm2⟩ := blocksSeg_append.mp h
  obtain ⟨hb, h16, h0, hrest⟩ := hm2
  subst hb
  constructor
  · intro he
    rw [he] at hrest
    exact hrest
  · intro c m2' he
    rw [he] at hrest
    exact hrest.1

/-- The parse predecessor of a block: the previous list entry ends
exactly at `b`, and if `b` is first then `b = i`. -/
theorem blocksSeg_pred {s : Heap} {j i b : Nat} {m1 m2 : List Nat}
    (h : blocksSeg s j i (m1 ++ b :: m2)) :
    (m1 = [] → b = i) ∧
      (∀ q m1', m1 = m1' ++ [q] → q + get_size s q / 8 = b) := by
  constructor
  · intro he
    subst he
    exact h.1
  · intro q m1' he
    subst he
    have h2 : (m1' ++ [q]) ++ b :: m2 = m1' ++ q :: (b :: m2) := by simp
    rw [h2] at h
    obtain ⟨m, hm1, hm2⟩ := blocksSeg_append.mp h
    obtain ⟨hq, h16, h0, hrest⟩ := hm2
    rw [hq]
    exact hrest.1.symm

/-! Further helpers: word extraction, block-cell geometry, the
header/footer rewrite, and chain surgery. -/

/-- An even word extracts as "free". -/
theorem extract_alloc_eq_false (M : Nat) (h : M % 2 = 0) :
    extract_alloc M = false := by
  simp only [extract_alloc, decide_eq_false_iff_not]
  omega

/-- A size that is a 16-multiple below `2^64` extracts as itself. -/
theorem extract_size_self (M : Nat) (h16 : M % 16 = 0) (hlt : M < 2 ^ 64) :
    extract_size M = M := by
  have h := extract_size_pack M false h16 hlt
  rwa [pack_false_eq] at h

/-- Link words of any block never alias a block header, a block footer,
or a sentinel word (generalising `link_cell_avoid` from free-list
members to all blocks). -/
theorem block_cell_avoid {s : Heap} {bs : List Nat} (hbs : heapBlocks s bs)
    (hminbs : ∀ y ∈ bs, 32 ≤ get_size s y) :
    ∀ x ∈ bs, ∀ k, k = 1 ∨ k = 2 →
      (∀ y ∈ bs, y ≠ x + k ∧ y + get_size s y / 8 - 1 ≠ x + k) ∧
        0 ≠ x + k ∧ s.len - 1 ≠ x + k := by
  intro x hx k hk
  have hx4 : 4 ≤ get_size s x / 8 := by
    have := hminbs x hx
    omega
  have hxpos := bs_pos_of hbs x hx
  refine ⟨fun y hy => ?_, by omega, ?_⟩
  · have hy4 : 4 ≤ get_size s y / 8 := by
      have := hminbs y hy
      omega
    by_cases hxy : y = x
    · subst hxy
      omega
    · rcases bs_disjoint_of hbs y hy x hx hxy with h2 | h2 <;> omega
  · omega

/-- Distinct blocks of at least minimum size are at least four words
apart. -/
theorem sep4_of_blocks {s : Heap} {bs : List Nat} (hbs : heapBlocks s bs)
    (hminbs : ∀ y ∈ bs, 32 ≤ get_size s y) {x y : Nat} (hx : x ∈ bs)
    (hy : y ∈ bs) (hne : x ≠ y) : sep4 x y := by
  have hx4 : 4 ≤ get_size s x / 8 := by
    have := hminbs x hx
    omega
  have hy4 : 4 ≤ get_size s y / 8 := by
    have := hminbs y hy
    omega
  rcases bs_disjoint_of hbs x hx y hy hne with h2 | h2
  · exact Or.inl (by omega)
  · exact Or.inr (by omega)

/-- Rewriting a block's header and footer with size `M`: the two cells
written and the untouched rest, with length and head preserved. -/
theorem mark_reads (s : Heap) (b M : Nat) (al : Bool) (h16 : M % 16 = 0)
    (h1 : 16 ≤ M) (hlt : M < 2 ^ 64) :
    (∀ i, readW (write_footer (write_header s b M al) b M al) i =
      if i = b + M / 8 - 1 then pack M al
      else if i = b then pack M al else readW s i) ∧
    (write_footer (write_header s b M al) b M al).len = s.len ∧
    (write_footer (write_header s b M al) b M al).free_list_head =
      s.free_list_head := by
  have hsz : get_size (write_header s b M al) b = M := by
    show extract_size (readW _ b) = M
    rw [write_header]
    simp only [readW_writeW, if_pos rfl]
    exact extract_size_pack _ al h16 hlt
  have hidx : header_to_footer (write_header s b M al) b = b + M / 8 - 1 := by
    rw [header_to_footer, hsz, dsize]
    exact footer_idx b M h16 h1
  refine ⟨fun i => ?_, ?_, ?_⟩
  · rw [write_footer, hidx, write_header]
    simp only [readW_writeW]
  · rw [write_footer, write_header]
    simp only [writeW_len]
  · rw [write_footer, write_header]
    simp only [writeW_head]

/-- Splitting a chain around a distinguished middle element. -/
theorem chain'_split3 {R : Nat → Nat → Prop} {m1 m2 : List Nat} {b : Nat}
    (h : List.Chain' R (m1 ++ b :: m2)) :
    List.Chain' R m1 ∧ List.Chain' R m2 ∧
      (∀ q, m1.getLast? = some q → R q b) ∧
      (∀ c, m2.head? = some c → R b c) := by
  rw [List.chain'_append] at h
  obtain ⟨h1, h2, h3⟩ := h
  obtain ⟨h4, h5⟩ := List.chain'_cons'.mp h2
  refine ⟨h1, h5, fun q hq => ?_, fun c hc => ?_⟩
  · exact h3 q hq b rfl
  · exact h4 c hc

/-- Gluing a chain around a distinguished middle element. -/
theorem chain'_glue {R : Nat → Nat → Prop} {m1 m2 : List Nat} {b : Nat}
    (h1 : List.Chain' R m1) (h2 : List.Chain' R m2)
    (hl : ∀ q, m1.getLast? = some q → R q b)
    (hr : ∀ c, m2.head? = some c → R b c) :
    List.Chain' R (m1 ++ b :: m2) := by
  rw [List.chain'_append]
  refine ⟨h1, List.chain'_cons'.mpr ⟨fun c hc => hr c hc, h2⟩, ?_⟩
  intro x hx y hy
  have hyb : (b : Nat) = y := by
    have h6 : (b :: m2).head? = some y := hy
    simpa using h6
  rw [← hyb]
  exact hl x hx

/-- A weakened adjacency chain away from `b` strengthens to the full
adjacency relation in any state with the same allocation bits. -/
theorem chain'_weak_strong {s s' : Heap} {b : Nat} {l : List Nat}
    (h : List.Chain' (fun x y => x = b ∨ y = b ∨ get_alloc s x = true ∨
      get_alloc s y = true) l)
    (hb : b ∉ l) (hal : ∀ x ∈ l, get_alloc s' x = get_alloc s x) :
    List.Chain' (fun x y => get_alloc s' x = true ∨ get_alloc s' y = true) l := by
  refine chain'_mem_imp h (fun x hx y hy hr => ?_)
  rcases hr with h1 | h1 | h1 | h1
  · exact absurd (h1 ▸ hx) hb
  · exact absurd (h1 ▸ hy) hb
  · exact Or.inl (by rw [hal x hx]; exact h1)
  · exact Or.inr (by rw [hal y hy]; exact h1)

/-- The final `insert_block` of `coalesce_block` restores the full
invariant, prepending the survivor to the free list. -/
theorem insert_invdata {s : Heap} {bs fl : List Nat} {b : Nat}
    (h : PreInsert s bs fl b) : InvData (insert_block s b) bs (b :: fl) := by
  have havoid := block_cell_avoid h.hbs h.hmin
  have hfr : ∀ i, (∀ x ∈ bs, i ≠ x + 1 ∧ i ≠ x + 2) →
      readW (insert_block s b) i = readW s i := by
    intro i hi
    refine insert_block_frame s b i (hi b h.hbmem).1 (hi b h.hbmem).2 ?_
    intro hh
    obtain ⟨x, fl', hx⟩ : ∃ x fl', fl = x :: fl' := by
      have hfl2 := h.hfl
      cases fl with
      | nil => exact absurd (show s.free_list_head = 0 from hfl2) hh
      | cons x xs => exact ⟨x, xs, rfl⟩
    have hfl2 := h.hfl
    rw [hx] at hfl2
    obtain ⟨hcx, -, -, -⟩ := hfl2
    rw [hcx]
    exact (hi x (h.hsub x (by rw [hx]; simp))).1
  have hfrH : ∀ y ∈ bs, readW (insert_block s b) y = readW s y := by
    intro y hy
    refine hfr y (fun x hx => ?_)
    exact ⟨((havoid x hx 1 (Or.inl rfl)).1 y hy).1,
      ((havoid x hx 2 (Or.inr rfl)).1 y hy).1⟩
  have hfrF : ∀ y ∈ bs, readW (insert_block s b) (y + get_size s y / 8 - 1) =
      readW s (y + get_size s y / 8 - 1) := by
    intro y hy
    refine hfr _ (fun x hx => ?_)
    exact ⟨((havoid x hx 1 (Or.inl rfl)).1 y hy).2,
      ((havoid x hx 2 (Or.inr rfl)).1 y hy).2⟩
  have hfrP : readW (insert_block s b) 0 = readW s 0 := by
    refine hfr 0 (fun x hx => ?_)
    exact ⟨(havoid x hx 1 (Or.inl rfl)).2.1, (havoid x hx 2 (Or.inr rfl)).2.1⟩
  have hfrE : readW (insert_block s b) (s.len - 1) = readW s (s.len - 1) := by
    refine hfr _ (fun x hx => ?_)
    exact ⟨(havoid x hx 1 (Or.inl rfl)).2.2, (havoid x hx 2 (Or.inr rfl)).2.2⟩
  have hget : ∀ y ∈ bs, get_size (insert_block s b) y = get_size s y := by
    intro y hy
    show extract_size _ = _
    rw [hfrH y hy]
    rfl
  have halloc : ∀ y ∈ bs, get_alloc (insert_block s b) y = get_alloc s y := by
    intro y hy
    show extract_alloc _ = _
    rw [hfrH y hy]
    rfl
  have hlen' := insert_block_len s b
  refine ⟨?_, ?_, ?_, ?_, ?_, ?_, ?_, ?_, ?_, ?_, ?_, ?_, ?_⟩
  · rw [hlen']; exact h.hlen
  · rw [hlen']; exact h.hcap
  · rw [hfrP]; exact h.hpro
  · rw [hlen', hfrE]; exact h.hepi
  · show blocksSeg _ _ 1 bs
    rw [hlen']
    exact blocksSeg_congr hget h.hbs
  · intro y hy
    rw [hfrH y hy, hget y hy, halloc y hy]
    exact h.hhdr y hy
  · intro y hy
    rw [hget y hy, hfrF y hy, hfrH y hy]
    exact h.hftr y hy
  · intro y hy
    rw [hget y hy]
    exact h.hmin y hy
  · exact insert_block_fl s fl b h.hfl
      (sep4_fl_of h.hbs h.hnodup h.hsub (fun x hx => h.hmin x (h.hsub x hx)))
      (by have := (bs_pos_of h.hbs b h.hbmem).1; omega)
      (fun x hx => sep4_of_blocks h.hbs h.hmin h.hbmem (h.hsub x hx)
        (fun he => h.hbnot (by rw [he]; exact hx)))
  · exact List.nodup_cons.mpr ⟨h.hbnot, h.hnodup⟩
  · intro y hy
    rcases List.mem_cons.mp hy with he | hy'
    · rw [he]; exact h.hbmem
    · exact h.hsub y hy'
  · intro y hy
    rw [halloc y hy]
    by_cases hyb : y = b
    · rw [hyb]
      exact ⟨fun _ => List.mem_cons_self b fl, fun _ => h.hbal⟩
    · rw [h.hfree y hy hyb]
      constructor
      · intro hm; exact List.mem_cons_of_mem b hm
      · intro hm
        rcases List.mem_cons.mp hm with h1 | h1
        · exact absurd h1 hyb
        · exact h1
  · refine chain'_mem_imp h.hadj (fun x hx y hy hr => ?_)
    rcases hr with h1 | h1
    · exact Or.inl (by rw [halloc x hx]; exact h1)
    · exact Or.inr (by rw [halloc y hy]; exact h1)

/-- Parse surgery for a two-block merge: if `a`'s size in the new state
is the sum of the old sizes of `a` and its successor `c`, and all other
sizes are unchanged, the new state parses with `c` absorbed into `a`. -/
theorem blocksSeg_merge2 {s s' : Heap} {j : Nat} {m1 m2 : List Nat} {a c : Nat} :
    ∀ {i : Nat}, blocksSeg s j i (m1 ++ a :: c :: m2) →
      (∀ y ∈ m1 ++ m2, get_size s' y = get_size s y) →
      get_size s' a = get_size s a + get_size s c →
      blocksSeg s' j i (m1 ++ a :: m2) := by
  intro i h hsz hma
  obtain ⟨m, h1, h2⟩ := blocksSeg_append.mp h
  obtain ⟨ha, h16a, h0a, hrest⟩ := h2
  obtain ⟨hc, h16c, h0c, hrest2⟩ := hrest
  subst ha
  rw [← hc] at h16c h0c hrest2
  refine blocksSeg_append.mpr ⟨a, ?_, ?_⟩
  · exact blocksSeg_congr (fun y hy => hsz y (List.mem_append_left m2 hy)) h1
  · refine ⟨rfl, ?_, ?_, ?_⟩
    · rw [hma]; omega
    · rw [hma]; omega
    · have e : a + get_size s' a / 8 =
          a + get_size s a / 8 + get_size s c / 8 := by
        rw [hma]; omega
      rw [e, ← hc]
      exact blocksSeg_congr (fun y hy => hsz y (List.mem_append_right m1 hy)) hrest2

/-- Parse surgery for a three-block merge. -/
theorem blocksSeg_merge3 {s s' : Heap} {j : Nat} {m1 m2 : List Nat} {a b c : Nat} :
    ∀ {i : Nat}, blocksSeg s j i (m1 ++ a :: b :: c :: m2) →
      (∀ y ∈ m1 ++ m2, get_size s' y = get_size s y) →
      get_size s' a = get_size s a + get_size s b + get_size s c →
      blocksSeg s' j i (m1 ++ a :: m2) := by
  intro i h hsz hma
  obtain ⟨m, h1, h2⟩ := blocksSeg_append.mp h
  obtain ⟨ha, h16a, h0a, hrest⟩ := h2
  obtain ⟨hb, h16b, h0b, hrest2⟩ := hrest
  subst ha
  rw [← hb] at h16b h0b hrest2
  obtain ⟨hc, h16c, h0c, hrest3⟩ := hrest2
  rw [← hc] at h16c h0c hrest3
  refine blocksSeg_append.mpr ⟨a, ?_, ?_⟩
  · exact blocksSeg_congr (fun y hy => hsz y (List.mem_append_left m2 hy)) h1
  · refine ⟨rfl, ?_, ?_, ?_⟩
    · rw [hma]; omega
    · rw [hma]; omega
    · have e : a + get_size s' a / 8 =
          b + get_size s b / 8 + get_size s c / 8 := by
        rw [hma]
        omega
      rw [e, ← hc]
      exact blocksSeg_congr (fun y hy => hsz y (List.mem_append_right m1 hy)) hrest3

/-! Identification of a block's heap neighbours from the parse. -/

/-- A block whose parse predecessor is `q`: `q` ends at `b`, the word
before `b` is `q`'s footer, and `find_prev` lands on `q`. -/
theorem prev_block_reads {s : Heap} {bs m1' m2 : List Nat} {q b : Nat}
    (hbs : heapBlocks s bs)
    (hhdrq : readW s q = pack (get_size s q) (get_alloc s q))
    (hftrq : readW s (q + get_size s q / 8 - 1) = readW s q)
    (hdec : bs = m1' ++ q :: b :: m2) :
    q + get_size s q / 8 = b ∧
      readW s (find_prev_footer b) = pack (get_size s q) (get_alloc s q) ∧
      find_prev s b = q := by
  have h : blocksSeg s (s.len - 1) 1 (m1' ++ q :: b :: m2) := by
    rw [← hdec]; exact hbs
  have hsucc := blocksSeg_succ h
  have hqb : b = q + get_size s q / 8 := hsucc.2 b m2 rfl
  have hqmem : q ∈ bs := by rw [hdec]; simp
  have h16 := (blocksSeg_mem_size hbs q hqmem).1
  have h0 := (blocksSeg_mem_size hbs q hqmem).2
  have hq1 : 1 ≤ q := (bs_pos_of hbs q hqmem).1
  have hq8 : 2 ≤ get_size s q / 8 := by omega
  have hfp : find_prev_footer b = q + get_size s q / 8 - 1 := by
    rw [find_prev_footer]; omega
  have hval : readW s (find_prev_footer b) =
      pack (get_size s q) (get_alloc s q) := by
    rw [hfp, hftrq, hhdrq]
  refine ⟨hqb.symm, hval, ?_⟩
  rw [find_prev, hval, extract_size_pack _ _ h16 (extract_size_lt _)]
  omega

/-- A block whose parse predecessor is absent starts right after the
prologue, whose footer word precedes it. -/
theorem prev_is_prologue {s : Heap} {bs m2 : List Nat} {b : Nat}
    (hbs : heapBlocks s bs) (hdec : bs = b :: m2) :
    b = 1 ∧ find_prev_footer b = 0 := by
  have h : blocksSeg s (s.len - 1) 1 ([] ++ b :: m2) := by
    rw [← hdec]; exact hbs
  have hb1 : b = 1 := (blocksSeg_pred h).1 rfl
  exact ⟨hb1, by rw [find_prev_footer, hb1]⟩

/-- A block whose parse successor is `c`: `c` starts where `b` ends. -/
theorem next_block_at {s : Heap} {bs m1 m2' : List Nat} {b c : Nat}
    (hbs : heapBlocks s bs) (hdec : bs = m1 ++ b :: c :: m2') :
    find_next s b = c := by
  have h : blocksSeg s (s.len - 1) 1 (m1 ++ b :: c :: m2') := by
    rw [← hdec]; exact hbs
  have := (blocksSeg_succ h).2 c m2' rfl
  rw [find_next, ← this]

/-- A block with no parse successor ends at the epilogue header. -/
theorem next_is_epilogue {s : Heap} {bs m1 : List Nat} {b : Nat}
    (hbs : heapBlocks s bs) (hdec : bs = m1 ++ [b]) :
    find_next s b = s.len - 1 := by
  have h : blocksSeg s (s.len - 1) 1 (m1 ++ b :: []) := by
    rw [← hdec]; exact hbs
  have := (blocksSeg_succ h).1 rfl
  rw [find_next, this]

/-- `coalesce_block`, case "both neighbours allocated": the header and
footer rewrites are identities and the block is inserted at the head of
the free list. -/
theorem coalesce_case4 {s : Heap} {bs fl : List Nat} {b : Nat}
    (h : PreCoalesce s bs fl b)
    (hpa : extract_alloc (readW s (find_prev_footer b)) = true)
    (hna : get_alloc s (find_next s b) = true) :
    InvData (coalesce_block s b).1 bs (b :: fl) := by
  obtain ⟨hsz32, hsz16, hszlt⟩ := size_facts_of h.hbs h.hmin h.hbmem
  have hhb : readW s b = pack (get_size s b) false := by
    have e := h.hhdr b h.hbmem
    rwa [h.hbal] at e
  have hwh : write_header s b (get_size s b) false = s := by
    rw [write_header, ← hhb]
    exact writeW_self s b
  have hfidx : header_to_footer s b = b + get_size s b / 8 - 1 := by
    rw [header_to_footer, dsize]
    exact footer_idx b (get_size s b) hsz16 (by omega)
  have hwf : write_footer s b (get_size s b) false = s := by
    rw [write_footer, hfidx]
    have e : pack (get_size s b) false = readW s (b + get_size s b / 8 - 1) := by
      rw [h.hftr b h.hbmem, hhb]
    rw [e]
    exact writeW_self s _
  have hcb : (coalesce_block s b).1 = insert_block s b := by
    have e1 : coalesce_block s b = (insert_block (write_footer (write_header s b
        (get_size s b) false) b (get_size s b) false) b, b) := by
      simp only [coalesce_block, hpa, hna, Bool.not_true, Bool.and_false,
        Bool.false_and, Bool.false_eq_true, if_false]
    rw [e1, hwh, hwf]
  rw [hcb]
  obtain ⟨m1, m2, hdec⟩ := List.append_of_mem h.hbmem
  have hnd : bs.Nodup := blocksSeg_nodup h.hbs
  have hadw := h.hadjw
  rw [hdec] at hadw hnd
  obtain ⟨hnd1, hnd2, hdisj⟩ := List.nodup_append.mp hnd
  have hbm1 : b ∉ m1 := fun hb => hdisj hb (List.mem_cons_self b m2)
  have hbm2 : b ∉ m2 := (List.nodup_cons.mp hnd2).1
  obtain ⟨hc1, hc2, hql, hcr⟩ := chain'_split3 hadw
  have hstrong : List.Chain' (fun x y => get_alloc s x = true ∨
      get_alloc s y = true) bs := by
    rw [hdec]
    refine chain'_glue (chain'_weak_strong hc1 hbm1 (fun x _ => rfl))
      (chain'_weak_strong hc2 hbm2 (fun x _ => rfl)) ?_ ?_
    · intro q hq
      rcases List.eq_nil_or_concat m1 with hm | ⟨m1', a, hm1⟩
      · rw [hm] at hq; simp at hq
      · rw [List.concat_eq_append] at hm1
        obtain rfl : a = q := by
          rw [hm1, List.getLast?_concat] at hq
          exact Option.some.inj hq
        have hqmem : a ∈ bs := by rw [hdec, hm1]; simp
        have hpr := prev_block_reads h.hbs (h.hhdr a hqmem) (h.hftr a hqmem)
          (show bs = m1' ++ a :: b :: m2 by rw [hdec, hm1]; simp)
        have h16q := (blocksSeg_mem_size h.hbs a hqmem).1
        have hqa : get_alloc s a = true := by
          have e := hpa
          rw [hpr.2.1, extract_alloc_pack _ _ h16q] at e
          exact e
        exact Or.inl hqa
    · intro c hc
      obtain ⟨m2', hm2⟩ : ∃ m2', m2 = c :: m2' := by
        cases m2 with
        | nil => simp at hc
        | cons x xs =>
          have e : x = c := by
            have e2 : some x = some c := hc
            exact Option.some.inj e2
          exact ⟨xs, by rw [e]⟩
      have hnx := next_block_at h.hbs (show bs = m1 ++ b :: c :: m2' by
        rw [hdec, hm2])
      have hca : get_alloc s c = true := by rw [← hnx]; exact hna
      exact Or.inr hca
  exact insert_invdata ⟨h.hlen, h.hcap, h.hpro, h.hepi, h.hbs, h.hhdr, h.hftr,
    h.hmin, h.hfl, h.hnodup, h.hsub, h.hbmem, h.hbal, h.hbnot, h.hfree, hstrong⟩

/-- `coalesce_block`, case "only the next neighbour free": the next
block is unlinked and absorbed into `b`, whose merged header and end
footer are rewritten, and `b` is inserted at the head of the free
list. -/
theorem coalesce_case1 {s : Heap} {bs fl m1 m2' : List Nat} {b c : Nat}
    (h : PreCoalesce s bs fl b) (hdec : bs = m1 ++ b :: c :: m2')
    (hpa : extract_alloc (readW s (find_prev_footer b)) = true)
    (hcal : get_alloc s c = false) :
    Inv (coalesce_block s b).1 := by
  have hbm : b ∈ bs := h.hbmem
  have hcm : c ∈ bs := by rw [hdec]; simp
  have hnd : bs.Nodup := blocksSeg_nodup h.hbs
  have hfl_min : ∀ x ∈ fl, 32 ≤ get_size s x := fun x hx => h.hmin x (h.hsub x hx)
  have havoid := link_cell_avoid h.hbs h.hsub hfl_min h.hmin
  have hnx : find_next s b = c := next_block_at h.hbs hdec
  obtain ⟨hb32, hb16, hblt⟩ := size_facts_of h.hbs h.hmin hbm
  obtain ⟨hc32, hc16, hclt⟩ := size_facts_of h.hbs h.hmin hcm
  have hb8 : 4 ≤ get_size s b / 8 := by omega
  have hc8 : 4 ≤ get_size s c / 8 := by omega
  have hcb : c = b + get_size s b / 8 := by rw [← hnx]; rfl
  have hbc : b ≠ c := by omega
  have hcfl : c ∈ fl := (h.hfree c hcm (by omega)).mp hcal
  obtain ⟨f1, f2, hfldec⟩ := List.append_of_mem hcfl
  have hcend : c + get_size s c / 8 ≤ s.len - 1 := (bs_pos_of h.hbs c hcm).2
  have hb1 : 1 ≤ b := (bs_pos_of h.hbs b hbm).1
  have hM16 : (get_size s b + get_size s c) % 16 = 0 := by omega
  have hMlt : get_size s b + get_size s c < 2 ^ 64 := by
    have hcap := h.hcap
    omega
  have hna' : get_alloc s (find_next s b) = false := by rw [hnx]; exact hcal
  have e1 : coalesce_block s b = (insert_block (write_footer (write_header
      (remove_block s c) b (get_size s b + get_size s c) false) b
      (get_size s b + get_size s c) false) b, b) := by
    simp only [coalesce_block, hnx, hcal, hpa, Bool.not_false, Bool.and_self,
      if_true]
  rw [e1]
  have hflchain := h.hfl
  rw [hfldec] at hflchain
  have hsepfl : List.Pairwise sep4 (f1 ++ c :: f2) := by
    rw [← hfldec]
    exact sep4_fl_of h.hbs h.hnodup h.hsub hfl_min
  have hrem := remove_block_fl s f1 f2 c hflchain hsepfl
  have hRfr : ∀ i, (∀ x ∈ fl, i ≠ x + 1 ∧ i ≠ x + 2) →
      readW (remove_block s c) i = readW s i := by
    intro i hi
    refine remove_block_fl_frame s f1 f2 c i hflchain (fun x hx => hi x ?_)
    rw [hfldec]; exact hx
  set s3 := write_footer (write_header (remove_block s c) b
    (get_size s b + get_size s c) false) b
    (get_size s b + get_size s c) false with hs3
  have hr3 : ∀ i, readW s3 i =
      if i = b + (get_size s b + get_size s c) / 8 - 1 then
        pack (get_size s b + get_size s c) false
      else if i = b then pack (get_size s b + get_size s c) false
      else readW (remove_block s c) i := by
    rw [hs3]
    exact (mark_reads (remove_block s c) b _ false hM16 (by omega) hMlt).1
  have hlen3 : s3.len = s.len := by
    rw [hs3, (mark_reads (remove_block s c) b _ false hM16 (by omega) hMlt).2.1,
      remove_block_len]
  have hhead3 : s3.free_list_head = (remove_block s c).free_list_head := by
    rw [hs3]
    exact (mark_reads (remove_block s c) b _ false hM16 (by omega) hMlt).2.2
  have hfr3 : ∀ i, i ≠ b → i ≠ c + get_size s c / 8 - 1 →
      (∀ x ∈ fl, i ≠ x + 1 ∧ i ≠ x + 2) → readW s3 i = readW s i := by
    intro i hib hifc hilinks
    rw [hr3 i, if_neg (show ¬(i = b + (get_size s b + get_size s c) / 8 - 1) by
      omega), if_neg hib]
    exact hRfr i hilinks
  have hfrH : ∀ y ∈ bs, y ≠ b → readW s3 y = readW s y := by
    intro y hy hyb
    have hy32 := h.hmin y hy
    have hy16 := (blocksSeg_mem_size h.hbs y hy).1
    refine hfr3 y hyb ?_ (fun x hx => ⟨((havoid x hx 1 (Or.inl rfl)).1 y hy).1,
      ((havoid x hx 2 (Or.inr rfl)).1 y hy).1⟩)
    by_cases hyc : y = c
    · omega
    · exact span_cells_ne_of h.hbs hy hcm hyc le_rfl (by omega) (by omega)
        (by omega)
  have hfrF : ∀ y ∈ bs, y ≠ b → y ≠ c →
      readW s3 (y + get_size s y / 8 - 1) = readW s (y + get_size s y / 8 - 1) := by
    intro y hy hyb hyc
    have hy32 := h.hmin y hy
    have hy16 := (blocksSeg_mem_size h.hbs y hy).1
    refine hfr3 _ ?_ ?_ (fun x hx => ⟨((havoid x hx 1 (Or.inl rfl)).1 y hy).2,
      ((havoid x hx 2 (Or.inr rfl)).1 y hy).2⟩)
    · exact span_cells_ne_of h.hbs hy hbm hyb (by omega) (by omega) le_rfl
        (by omega)
    · exact span_cells_ne_of h.hbs hy hcm hyc (by omega) (by omega) (by omega)
        (by omega)
  have hfrP : readW s3 0 = readW s 0 := by
    refine hfr3 0 (by omega) (by omega) (fun x hx =>
      ⟨(havoid x hx 1 (Or.inl rfl)).2.1, (havoid x hx 2 (Or.inr rfl)).2.1⟩)
  have hfrE : readW s3 (s.len - 1) = readW s (s.len - 1) := by
    refine hfr3 _ ?_ (by omega) (fun x hx =>
      ⟨(havoid x hx 1 (Or.inl rfl)).2.2, (havoid x hx 2 (Or.inr rfl)).2.2⟩)
    have := cell_lt_epi_of h.hbs hbm (show b < b + get_size s b / 8 by omega)
    omega
  have hreadb : readW s3 b = get_size s b + get_size s c := by
    rw [hr3 b, if_neg (show ¬(b = b + (get_size s b + get_size s c) / 8 - 1) by
      omega), if_pos rfl, pack_false_eq]
  have hreadf : readW s3 (b + (get_size s b + get_size s c) / 8 - 1) =
      get_size s b + get_size s c := by
    rw [hr3 _, if_pos rfl, pack_false_eq]
  have hgetb : get_size s3 b = get_size s b + get_size s c := by
    show extract_size _ = _
    rw [hreadb]
    exact extract_size_self _ hM16 hMlt
  have hallocb : get_alloc s3 b = false := by
    show extract_alloc _ = _
    rw [hreadb]
    exact extract_alloc_eq_false _ (by omega)
  have hget3 : ∀ y ∈ bs, y ≠ b → get_size s3 y = get_size s y := by
    intro y hy hyb
    show extract_size _ = _
    rw [hfrH y hy hyb]
    rfl
  have halloc3 : ∀ y ∈ bs, y ≠ b → get_alloc s3 y = get_alloc s y := by
    intro y hy hyb
    show extract_alloc _ = _
    rw [hfrH y hy hyb]
    rfl
  have hndd := hnd
  rw [hdec] at hndd
  obtain ⟨hnd1, hnd2, hdisj⟩ := List.nodup_append.mp hndd
  have hbm1 : b ∉ m1 := fun hb => hdisj hb (List.mem_cons_self b (c :: m2'))
  have hcm1 : c ∉ m1 := fun hb => hdisj hb (by simp)
  have hbcm : b ∉ c :: m2' := (List.nodup_cons.mp hnd2).1
  have hbm2 : b ∉ m2' := fun hb => hbcm (List.mem_cons_of_mem c hb)
  have hcm2 : c ∉ m2' := (List.nodup_cons.mp (List.nodup_cons.mp hnd2).2).1
  have hcf12 : c ∉ f1 ++ f2 := by
    intro hcmem2
    have hnfl := h.hnodup
    rw [hfldec] at hnfl
    rcases List.mem_append.mp hcmem2 with h1 | h1
    · exact (List.nodup_append.mp hnfl).2.2 h1 (by simp)
    · exact (List.nodup_cons.mp
        (hnfl.sublist (List.sublist_append_right f1 (c :: f2)))).1 h1
  have hmem_bs' : ∀ y, y ∈ m1 ++ b :: m2' → y ∈ bs := by
    intro y hy
    rw [hdec]
    rcases List.mem_append.mp hy with h1 | h1
    · exact List.mem_append.mpr (Or.inl h1)
    · rcases List.mem_cons.mp h1 with h2 | h2
      · exact List.mem_append.mpr (Or.inr (by rw [h2]; simp))
      · exact List.mem_append.mpr (Or.inr (by simp [h2]))
  have hne_c : ∀ y, y ∈ m1 ++ b :: m2' → y ≠ c := by
    intro y hy he
    rw [he] at hy
    rcases List.mem_append.mp hy with h1 | h1
    · exact hcm1 h1
    · rcases List.mem_cons.mp h1 with h2 | h2
      · exact hbc h2.symm
      · exact hcm2 h2
  have hfl3 : chainSeg s3 0 s3.free_list_head (f1 ++ f2) := by
    rw [hhead3]
    refine chainSeg_congr (fun x hx => ?_) hrem
    have hxfl : x ∈ fl := by
      rw [hfldec]
      rcases List.mem_append.mp hx with h1 | h1
      · exact List.mem_append.mpr (Or.inl h1)
      · exact List.mem_append.mpr (Or.inr (List.mem_cons_of_mem c h1))
    have hx1b := ((havoid x hxfl 1 (Or.inl rfl)).1 b hbm).1
    have hx2b := ((havoid x hxfl 2 (Or.inr rfl)).1 b hbm).1
    have hx1c := ((havoid x hxfl 1 (Or.inl rfl)).1 c hcm).2
    have hx2c := ((havoid x hxfl 2 (Or.inr rfl)).1 c hcm).2
    constructor
    · rw [hr3, if_neg (by omega), if_neg (by omega)]
    · rw [hr3, if_neg (by omega), if_neg (by omega)]
  have hadw := h.hadjw
  rw [hdec] at hadw
  obtain ⟨hch1, hch2, hql, hcr⟩ := chain'_split3 hadw
  obtain ⟨hpairc, hch2'⟩ := List.chain'_cons'.mp hch2
  have hstrong : List.Chain' (fun x y => get_alloc s3 x = true ∨
      get_alloc s3 y = true) (m1 ++ b :: m2') := by
    refine chain'_glue ?_ ?_ ?_ ?_
    · exact chain'_weak_strong hch1 hbm1 (fun x hx => halloc3 x
        (hmem_bs' x (List.mem_append_left _ hx)) (fun he => hbm1 (he ▸ hx)))
    · exact chain'_weak_strong hch2' hbm2 (fun x hx => halloc3 x
        (hmem_bs' x (List.mem_append_right _ (List.mem_cons_of_mem b hx)))
        (fun he => hbm2 (he ▸ hx)))
    · intro q hq
      rcases List.eq_nil_or_concat m1 with hm | ⟨m1'', a, hm1⟩
      · rw [hm] at hq; simp at hq
      · rw [List.concat_eq_append] at hm1
        obtain rfl : a = q := by
          rw [hm1, List.getLast?_concat] at hq
          exact Option.some.inj hq
        have hqmem : a ∈ bs := by rw [hdec, hm1]; simp
        have hpr := prev_block_reads h.hbs (h.hhdr a hqmem) (h.hftr a hqmem)
          (show bs = m1'' ++ a :: b :: (c :: m2') by rw [hdec, hm1]; simp)
        have h16q := (blocksSeg_mem_size h.hbs a hqmem).1
        have hqa : get_alloc s a = true := by
          have e := hpa
          rw [hpr.2.1, extract_alloc_pack _ _ h16q] at e
          exact e
        refine Or.inl ?_
        rw [halloc3 a hqmem (fun he => hbm1 (by rw [← he, hm1]; simp))]
        exact hqa
    · intro d hd
      have hdm : d ∈ m2' := by
        cases m2' with
        | nil => simp at hd
        | cons x xs =>
          have e : x = d := Option.some.inj hd
          rw [← e]; simp
      have hpair := hpairc d hd
      have hdb : d ≠ b := fun he => hbm2 (he ▸ hdm)
      rcases hpair with h1 | h1 | h1 | h1
      · exact absurd h1 (fun e => hbc e.symm)
      · exact absurd h1 hdb
      · rw [hcal] at h1
        exact absurd h1 (by simp)
      · refine Or.inr ?_
        rw [halloc3 d (hmem_bs' d (List.mem_append_right _
          (List.mem_cons_of_mem b hdm))) hdb]
        exact h1
  refine ⟨m1 ++ b :: m2', b :: (f1 ++ f2), insert_invdata
    ⟨?_, ?_, ?_, ?_, ?_, ?_, ?_, ?_, ?_, ?_, ?_, ?_, ?_, ?_, ?_, ?_⟩⟩
  · rw [hlen3]; exact h.hlen
  · rw [hlen3]; exact h.hcap
  · rw [hfrP]; exact h.hpro
  · rw [hlen3, hfrE]; exact h.hepi
  · show blocksSeg s3 (s3.len - 1) 1 (m1 ++ b :: m2')
    rw [hlen3]
    refine blocksSeg_merge2 (s := s) (c := c) ?_ ?_ ?_
    · rw [← hdec]; exact h.hbs
    · intro y hy
      rcases List.mem_append.mp hy with h1 | h1
      · exact hget3 y (hmem_bs' y (List.mem_append_left _ h1))
          (fun he => hbm1 (he ▸ h1))
      · exact hget3 y (hmem_bs' y (List.mem_append_right _
          (List.mem_cons_of_mem b h1))) (fun he => hbm2 (he ▸ h1))
    · exact hgetb
  · intro y hy
    by_cases hyb : y = b
    · rw [hyb, hreadb, hgetb, hallocb, pack_false_eq]
    · have hybs := hmem_bs' y hy
      rw [hfrH y hybs hyb, hget3 y hybs hyb, halloc3 y hybs hyb]
      exact h.hhdr y hybs
  · intro y hy
    by_cases hyb : y = b
    · rw [hyb, hgetb, hreadf, hreadb]
    · have hybs := hmem_bs' y hy
      rw [hget3 y hybs hyb, hfrF y hybs hyb (hne_c y hy), hfrH y hybs hyb]
      exact h.hftr y hybs
  · intro y hy
    by_cases hyb : y = b
    · rw [hyb, hgetb]; omega
    · rw [hget3 y (hmem_bs' y hy) hyb]
      exact h.hmin y (hmem_bs' y hy)
  · exact hfl3
  · have hnfl := h.hnodup
    rw [hfldec] at hnfl
    exact hnfl.sublist (List.Sublist.append_left (List.sublist_cons_self c f2) f1)
  · intro y hy
    have hyfl : y ∈ fl := by
      rw [hfldec]
      rcases List.mem_append.mp hy with h1 | h1
      · exact List.mem_append.mpr (Or.inl h1)
      · exact List.mem_append.mpr (Or.inr (List.mem_cons_of_mem c h1))
    have hybs := h.hsub y hyfl
    have hyc : y ≠ c := fun he => hcf12 (he ▸ hy)
    have hyb : y ≠ b := fun he => h.hbnot (he ▸ hyfl)
    rw [hdec] at hybs
    rcases List.mem_append.mp hybs with h1 | h1
    · exact List.mem_append.mpr (Or.inl h1)
    · rcases List.mem_cons.mp h1 with h2 | h2
      · exact absurd h2 hyb
      · rcases List.mem_cons.mp h2 with h3 | h3
        · exact absurd h3 hyc
        · exact List.mem_append.mpr (Or.inr (List.mem_cons_of_mem b h3))
  · simp
  · exact hallocb
  · intro hb
    refine h.hbnot ?_
    rw [hfldec]
    rcases List.mem_append.mp hb with h1 | h1
    · exact List.mem_append.mpr (Or.inl h1)
    · exact List.mem_append.mpr (Or.inr (List.mem_cons_of_mem c h1))
  · intro y hy hyb
    have hybs := hmem_bs' y hy
    rw [halloc3 y hybs hyb, h.hfree y hybs hyb, hfldec]
    have hyc := hne_c y hy
    constructor
    · intro hm
      rcases List.mem_append.mp hm with h1 | h1
      · exact List.mem_append.mpr (Or.inl h1)
      · rcases List.mem_cons.mp h1 with h2 | h2
        · exact absurd h2 hyc
        · exact List.mem_append.mpr (Or.inr h2)
    · intro hm
      rcases List.mem_append.mp hm with h1 | h1
      · exact List.mem_append.mpr (Or.inl h1)
      · exact List.mem_append.mpr (Or.inr (List.mem_cons_of_mem c h1))
  · exact hstrong

/-- `coalesce_block`, case "only the previous neighbour free": the
previous block `q` is unlinked, absorbs `b`, and is re-inserted at the
head of the free list. -/
theorem coalesce_case2 {s : Heap} {bs fl m1' m2 : List Nat} {q b : Nat}
    (h : PreCoalesce s bs fl b) (hdec : bs = m1' ++ q :: b :: m2)
    (hqal : get_alloc s q = false)
    (hna : get_alloc s (find_next s b) = true) :
    Inv (coalesce_block s b).1 := by
  have hbm : b ∈ bs := h.hbmem
  have hqm : q ∈ bs := by rw [hdec]; simp
  have hnd : bs.Nodup := blocksSeg_nodup h.hbs
  have hfl_min : ∀ x ∈ fl, 32 ≤ get_size s x := fun x hx => h.hmin x (h.hsub x hx)
  have havoid := link_cell_avoid h.hbs h.hsub hfl_min h.hmin
  obtain ⟨hb32, hb16, hblt⟩ := size_facts_of h.hbs h.hmin hbm
  obtain ⟨hq32, hq16, hqlt⟩ := size_facts_of h.hbs h.hmin hqm
  have hb8 : 4 ≤ get_size s b / 8 := by omega
  have hq8 : 4 ≤ get_size s q / 8 := by omega
  have hpr := prev_block_reads h.hbs (h.hhdr q hqm) (h.hftr q hqm) hdec
  have hqb : q + get_size s q / 8 = b := hpr.1
  have hfp : find_prev s b = q := hpr.2.2
  have hpa' : extract_alloc (readW s (find_prev_footer b)) = false := by
    rw [hpr.2.1, extract_alloc_pack _ _ hq16]
    exact hqal
  have hqbne : q ≠ b := by omega
  have hqfl : q ∈ fl := (h.hfree q hqm hqbne).mp hqal
  obtain ⟨f1, f2, hfldec⟩ := List.append_of_mem hqfl
  have hbend : b + get_size s b / 8 ≤ s.len - 1 := (bs_pos_of h.hbs b hbm).2
  have hq1 : 1 ≤ q := (bs_pos_of h.hbs q hqm).1
  have hM16 : (get_size s b + get_size s q) % 16 = 0 := by omega
  have hMlt : get_size s b + get_size s q < 2 ^ 64 := by
    have hcap := h.hcap
    omega
  have e1 : coalesce_block s b = (insert_block (write_footer (write_header
      (remove_block s q) q (get_size s b + get_size s q) false) q
      (get_size s b + get_size s q) false) q, q) := by
    simp only [coalesce_block, hfp, hpa', hna, Bool.not_false, Bool.and_self,
      Bool.not_true, Bool.and_false, Bool.false_and, Bool.false_eq_true,
      if_false, if_true]
  rw [e1]
  have hflchain := h.hfl
  rw [hfldec] at hflchain
  have hsepfl : List.Pairwise sep4 (f1 ++ q :: f2) := by
    rw [← hfldec]
    exact sep4_fl_of h.hbs h.hnodup h.hsub hfl_min
  have hrem := remove_block_fl s f1 f2 q hflchain hsepfl
  have hRfr : ∀ i, (∀ x ∈ fl, i ≠ x + 1 ∧ i ≠ x + 2) →
      readW (remove_block s q) i = readW s i := by
    intro i hi
    refine remove_block_fl_frame s f1 f2 q i hflchain (fun x hx => hi x ?_)
    rw [hfldec]; exact hx
  set s3 := write_footer (write_header (remove_block s q) q
    (get_size s b + get_size s q) false) q
    (get_size s b + get_size s q) false with hs3
  have hr3 : ∀ i, readW s3 i =
      if i = q + (get_size s b + get_size s q) / 8 - 1 then
        pack (get_size s b + get_size s q) false
      else if i = q then pack (get_size s b + get_size s q) false
      else readW (remove_block s q) i := by
    rw [hs3]
    exact (mark_reads (remove_block s q) q _ false hM16 (by omega) hMlt).1
  have hlen3 : s3.len = s.len := by
    rw [hs3, (mark_reads (remove_block s q) q _ false hM16 (by omega) hMlt).2.1,
      remove_block_len]
  have hhead3 : s3.free_list_head = (remove_block s q).free_list_head := by
    rw [hs3]
    exact (mark_reads (remove_block s q) q _ false hM16 (by omega) hMlt).2.2
  have hfr3 : ∀ i, i ≠ q → i ≠ b + get_size s b / 8 - 1 →
      (∀ x ∈ fl, i ≠ x + 1 ∧ i ≠ x + 2) → readW s3 i = readW s i := by
    intro i hiq hifc hilinks
    rw [hr3 i, if_neg (show ¬(i = q + (get_size s b + get_size s q) / 8 - 1) by
      omega), if_neg hiq]
    exact hRfr i hilinks
  have hfrH : ∀ y ∈ bs, y ≠ q → readW s3 y = readW s y := by
    intro y hy hyq
    have hy32 := h.hmin y hy
    have hy16 := (blocksSeg_mem_size h.hbs y hy).1
    refine hfr3 y hyq ?_ (fun x hx => ⟨((havoid x hx 1 (Or.inl rfl)).1 y hy).1,
      ((havoid x hx 2 (Or.inr rfl)).1 y hy).1⟩)
    by_cases hyb : y = b
    · omega
    · exact span_cells_ne_of h.hbs hy hbm hyb le_rfl (by omega) (by omega)
        (by omega)
  have hfrF : ∀ y ∈ bs, y ≠ q → y ≠ b →
      readW s3 (y + get_size s y / 8 - 1) = readW s (y + get_size s y / 8 - 1) := by
    intro y hy hyq hyb
    have hy32 := h.hmin y hy
    have hy16 := (blocksSeg_mem_size h.hbs y hy).1
    refine hfr3 _ ?_ ?_ (fun x hx => ⟨((havoid x hx 1 (Or.inl rfl)).1 y hy).2,
      ((havoid x hx 2 (Or.inr rfl)).1 y hy).2⟩)
    · exact span_cells_ne_of h.hbs hy hqm hyq (by omega) (by omega) le_rfl
        (by omega)
    · exact span_cells_ne_of h.hbs hy hbm hyb (by omega) (by omega) (by omega)
        (by omega)
  have hfrP : readW s3 0 = readW s 0 := by
    refine hfr3 0 (by omega) (by omega) (fun x hx =>
      ⟨(havoid x hx 1 (Or.inl rfl)).2.1, (havoid x hx 2 (Or.inr rfl)).2.1⟩)
  have hfrE : readW s3 (s.len - 1) = readW s (s.len - 1) := by
    refine hfr3 _ ?_ (by omega) (fun x hx =>
      ⟨(havoid x hx 1 (Or.inl rfl)).2.2, (havoid x hx 2 (Or.inr rfl)).2.2⟩)
    have := cell_lt_epi_of h.hbs hqm (show q < q + get_size s q / 8 by omega)
    omega
  have hreadq : readW s3 q = get_size s b + get_size s q := by
    rw [hr3 q, if_neg (show ¬(q = q + (get_size s b + get_size s q) / 8 - 1) by
      omega), if_pos rfl, pack_false_eq]
  have hreadf : readW s3 (q + (get_size s b + get_size s q) / 8 - 1) =
      get_size s b + get_size s q := by
    rw [hr3 _, if_pos rfl, pack_false_eq]
  have hgetq : get_size s3 q = get_size s b + get_size s q := by
    show extract_size _ = _
    rw [hreadq]
    exact extract_size_self _ hM16 hMlt
  have hallocq : get_alloc s3 q = false := by
    show extract_alloc _ = _
    rw [hreadq]
    exact extract_alloc_eq_false _ (by omega)
  have hget3 : ∀ y ∈ bs, y ≠ q → get_size s3 y = get_size s y := by
    intro y hy hyq
    show extract_size _ = _
    rw [hfrH y hy hyq]
    rfl
  have halloc3 : ∀ y ∈ bs, y ≠ q → get_alloc s3 y = get_alloc s y := by
    intro y hy hyq
    show extract_alloc _ = _
    rw [hfrH y hy hyq]
    rfl
  have hndd := hnd
  rw [hdec] at hndd
  obtain ⟨hnd1, hnd2, hdisj⟩ := List.nodup_append.mp hndd
  have hqm1 : q ∉ m1' := fun hb => hdisj hb (List.mem_cons_self q (b :: m2))
  have hbm1 : b ∉ m1' := fun hb => hdisj hb (by simp)
  have hqbm : q ∉ b :: m2 := (List.nodup_cons.mp hnd2).1
  have hqm2 : q ∉ m2 := fun hb => hqbm (List.mem_cons_of_mem b hb)
  have hbm2 : b ∉ m2 := (List.nodup_cons.mp (List.nodup_cons.mp hnd2).2).1
  have hqf12 : q ∉ f1 ++ f2 := by
    intro hqmem2
    have hnfl := h.hnodup
    rw [hfldec] at hnfl
    rcases List.mem_append.mp hqmem2 with h1 | h1
    · exact (List.nodup_append.mp hnfl).2.2 h1 (by simp)
    · exact (List.nodup_cons.mp
        (hnfl.sublist (List.sublist_append_right f1 (q :: f2)))).1 h1
  have hmem_bs' : ∀ y, y ∈ m1' ++ q :: m2 → y ∈ bs := by
    intro y hy
    rw [hdec]
    rcases List.mem_append.mp hy with h1 | h1
    · exact List.mem_append.mpr (Or.inl h1)
    · rcases List.mem_cons.mp h1 with h2 | h2
      · exact List.mem_append.mpr (Or.inr (by rw [h2]; simp))
      · exact List.mem_append.mpr (Or.inr (by simp [h2]))
  have hne_b : ∀ y, y ∈ m1' ++ q :: m2 → y ≠ b := by
    intro y hy he
    rw [he] at hy
    rcases List.mem_append.mp hy with h1 | h1
    · exact hbm1 h1
    · rcases List.mem_cons.mp h1 with h2 | h2
      · exact hqbne h2.symm
      · exact hbm2 h2
  have hfl3 : chainSeg s3 0 s3.free_list_head (f1 ++ f2) := by
    rw [hhead3]
    refine chainSeg_congr (fun x hx => ?_) hrem
    have hxfl : x ∈ fl := by
      rw [hfldec]
      rcases List.mem_append.mp hx with h1 | h1
      · exact List.mem_append.mpr (Or.inl h1)
      · exact List.mem_append.mpr (Or.inr (List.mem_cons_of_mem q h1))
    have hx1q := ((havoid x hxfl 1 (Or.inl rfl)).1 q hqm).1
    have hx2q := ((havoid x hxfl 2 (Or.inr rfl)).1 q hqm).1
    have hx1b := ((havoid x hxfl 1 (Or.inl rfl)).1 b hbm).2
    have hx2b := ((havoid x hxfl 2 (Or.inr rfl)).1 b hbm).2
    constructor
    · rw [hr3, if_neg (by omega), if_neg (by omega)]
    · rw [hr3, if_neg (by omega), if_neg (by omega)]
  have hadw := h.hadjw
  rw [hdec] at hadw
  obtain ⟨hch1, hch2, hql, hcr⟩ := chain'_split3 hadw
  obtain ⟨hpairb, hch2'⟩ := List.chain'_cons'.mp hch2
  have hstrong : List.Chain' (fun x y => get_alloc s3 x = true ∨
      get_alloc s3 y = true) (m1' ++ q :: m2) := by
    refine chain'_glue ?_ ?_ ?_ ?_
    · exact chain'_weak_strong hch1 hbm1 (fun x hx => halloc3 x
        (hmem_bs' x (List.mem_append_left _ hx)) (fun he => hqm1 (he ▸ hx)))
    · exact chain'_weak_strong hch2' hbm2 (fun x hx => halloc3 x
        (hmem_bs' x (List.mem_append_right _ (List.mem_cons_of_mem q hx)))
        (fun he => hqm2 (he ▸ hx)))
    · intro p hp
      have hpm : p ∈ m1' := by
        rcases List.eq_nil_or_concat m1' with hm | ⟨m1'', a, hm1⟩
        · rw [hm] at hp; simp at hp
        · rw [List.concat_eq_append] at hm1
          rw [hm1, List.getLast?_concat] at hp
          rw [hm1]
          have : a = p := Option.some.inj hp
          rw [← this]; simp
      have hpair := hql p hp
      have hpb : p ≠ b := fun he => hbm1 (he ▸ hpm)
      have hpq : p ≠ q := fun he => hqm1 (he ▸ hpm)
      rcases hpair with h1 | h1 | h1 | h1
      · exact absurd h1 hpb
      · exact absurd h1 (by omega)
      · refine Or.inl ?_
        rw [halloc3 p (hmem_bs' p (List.mem_append_left _ hpm)) hpq]
        exact h1
      · rw [hqal] at h1
        exact absurd h1 (by simp)
    · intro d hd
      obtain ⟨m2'', hm2⟩ : ∃ m2'', m2 = d :: m2'' := by
        cases m2 with
        | nil => simp at hd
        | cons x xs =>
          have e : x = d := Option.some.inj hd
          exact ⟨xs, by rw [e]⟩
      have hdm : d ∈ m2 := by rw [hm2]; simp
      have hnx2 : find_next s b = d := next_block_at h.hbs
        (show bs = (m1' ++ [q]) ++ b :: d :: m2'' by rw [hdec, hm2]; simp)
      have hda : get_alloc s d = true := by rw [← hnx2]; exact hna
      refine Or.inr ?_
      rw [halloc3 d (hmem_bs' d (List.mem_append_right _
        (List.mem_cons_of_mem q hdm))) (fun he => hqm2 (he ▸ hdm))]
      exact hda
  refine ⟨m1' ++ q :: m2, q :: (f1 ++ f2), insert_invdata
    ⟨?_, ?_, ?_, ?_, ?_, ?_, ?_, ?_, ?_, ?_, ?_, ?_, ?_, ?_, ?_, ?_⟩⟩
  · rw [hlen3]; exact h.hlen
  · rw [hlen3]; exact h.hcap
  · rw [hfrP]; exact h.hpro
  · rw [hlen3, hfrE]; exact h.hepi
  · show blocksSeg s3 (s3.len - 1) 1 (m1' ++ q :: m2)
    rw [hlen3]
    refine blocksSeg_merge2 (s := s) (c := b) ?_ ?_ ?_
    · rw [← hdec]; exact h.hbs
    · intro y hy
      rcases List.mem_append.mp hy with h1 | h1
      · exact hget3 y (hmem_bs' y (List.mem_append_left _ h1))
          (fun he => hqm1 (he ▸ h1))
      · exact hget3 y (hmem_bs' y (List.mem_append_right _
          (List.mem_cons_of_mem q h1))) (fun he => hqm2 (he ▸ h1))
    · rw [hgetq]; omega
  · intro y hy
    by_cases hyq : y = q
    · rw [hyq, hreadq, hgetq, hallocq, pack_false_eq]
    · have hybs := hmem_bs' y hy
      rw [hfrH y hybs hyq, hget3 y hybs hyq, halloc3 y hybs hyq]
      exact h.hhdr y hybs
  · intro y hy
    by_cases hyq : y = q
    · rw [hyq, hgetq, hreadf, hreadq]
    · have hybs := hmem_bs' y hy
      rw [hget3 y hybs hyq, hfrF y hybs hyq (hne_b y hy), hfrH y hybs hyq]
      exact h.hftr y hybs
  · intro y hy
    by_cases hyq : y = q
    · rw [hyq, hgetq]; omega
    · rw [hget3 y (hmem_bs' y hy) hyq]
      exact h.hmin y (hmem_bs' y hy)
  · exact hfl3
  · have hnfl := h.hnodup
    rw [hfldec] at hnfl
    exact hnfl.sublist (List.Sublist.append_left (List.sublist_cons_self q f2) f1)
  · intro y hy
    have hyfl : y ∈ fl := by
      rw [hfldec]
      rcases List.mem_append.mp hy with h1 | h1
      · exact List.mem_append.mpr (Or.inl h1)
      · exact List.mem_append.mpr (Or.inr (List.mem_cons_of_mem q h1))
    have hybs := h.hsub y hyfl
    have hyq : y ≠ q := fun he => hqf12 (he ▸ hy)
    have hyb : y ≠ b := fun he => h.hbnot (he ▸ hyfl)
    rw [hdec] at hybs
    rcases List.mem_append.mp hybs with h1 | h1
    · exact List.mem_append.mpr (Or.inl h1)
    · rcases List.mem_cons.mp h1 with h2 | h2
      · exact absurd h2 hyq
      · rcases List.mem_cons.mp h2 with h3 | h3
        · exact absurd h3 hyb
        · exact List.mem_append.mpr (Or.inr (List.mem_cons_of_mem q h3))
  · simp
  · exact hallocq
  · intro hb
    refine hqf12 ?_
    exact hb
  · intro y hy hyq
    have hybs := hmem_bs' y hy
    rw [halloc3 y hybs hyq, h.hfree y hybs (hne_b y hy), hfldec]
    constructor
    · intro hm
      rcases List.mem_append.mp hm with h1 | h1
      · exact List.mem_append.mpr (Or.inl h1)
      · rcases List.mem_cons.mp h1 with h2 | h2
        · exact absurd h2 hyq
        · exact List.mem_append.mpr (Or.inr h2)
    · intro hm
      rcases List.mem_append.mp hm with h1 | h1
      · exact List.mem_append.mpr (Or.inl h1)
      · exact List.mem_append.mpr (Or.inr (List.mem_cons_of_mem q h1))
  · exact hstrong

/-- `coalesce_block`, case "both neighbours free": the previous block
`q` and the next block `c` are unlinked, `q` absorbs all three, and is
re-inserted at the head of the free list. -/
theorem coalesce_case3 {s : Heap} {bs fl m1' m2' : List Nat} {q b c : Nat}
    (h : PreCoalesce s bs fl b) (hdec : bs = m1' ++ q :: b :: c :: m2')
    (hqal : get_alloc s q = false) (hcal : get_alloc s c = false) :
    Inv (coalesce_block s b).1 := by
  have hbm : b ∈ bs := h.hbmem
  have hqm : q ∈ bs := by rw [hdec]; simp
  have hcm : c ∈ bs := by rw [hdec]; simp
  have hnd : bs.Nodup := blocksSeg_nodup h.hbs
  have hfl_min : ∀ x ∈ fl, 32 ≤ get_size s x := fun x hx => h.hmin x (h.hsub x hx)
  have havoid := link_cell_avoid h.hbs h.hsub hfl_min h.hmin
  obtain ⟨hb32, hb16, hblt⟩ := size_facts_of h.hbs h.hmin hbm
  obtain ⟨hq32, hq16, hqlt⟩ := size_facts_of h.hbs h.hmin hqm
  obtain ⟨hc32, hc16, hclt⟩ := size_facts_of h.hbs h.hmin hcm
  have hb8 : 4 ≤ get_size s b / 8 := by omega
  have hq8 : 4 ≤ get_size s q / 8 := by omega
  have hc8 : 4 ≤ get_size s c / 8 := by omega
  have hpr := prev_block_reads h.hbs (h.hhdr q hqm) (h.hftr q hqm) hdec
  have hqb : q + get_size s q / 8 = b := hpr.1
  have hfp : find_prev s b = q := hpr.2.2
  have hpa' : extract_alloc (readW s (find_prev_footer b)) = false := by
    rw [hpr.2.1, extract_alloc_pack _ _ hq16]
    exact hqal
  have hnx : find_next s b = c := next_block_at h.hbs
    (show bs = (m1' ++ [q]) ++ b :: c :: m2' by rw [hdec]; simp)
  have hcb : c = b + get_size s b / 8 := by rw [← hnx]; rfl
  have hqbne : q ≠ b := by omega
  have hbc : b ≠ c := by omega
  have hqc : q ≠ c := by omega
  have hqfl : q ∈ fl := (h.hfree q hqm hqbne).mp hqal
  have hcfl : c ∈ fl := (h.hfree c hcm (by omega)).mp hcal
  obtain ⟨f1, f2, hfldec⟩ := List.append_of_mem hqfl
  have hcend : c + get_size s c / 8 ≤ s.len - 1 := (bs_pos_of h.hbs c hcm).2
  have hq1 : 1 ≤ q := (bs_pos_of h.hbs q hqm).1
  have hM16 : (get_size s b + get_size s q + get_size s c) % 16 = 0 := by omega
  have hMlt : get_size s b + get_size s q + get_size s c < 2 ^ 64 := by
    have hcap := h.hcap
    omega
  have hna' : get_alloc s (find_next s b) = false := by rw [hnx]; exact hcal
  have e1 : coalesce_block s b = (insert_block (write_footer (write_header
      (remove_block (remove_block s q) c) q
      (get_size s b + get_size s q + get_size s c) false) q
      (get_size s b + get_size s q + get_size s c) false) q, q) := by
    simp only [coalesce_block, hfp, hnx, hcal, hpa', Bool.not_false,
      Bool.and_self, Bool.and_false, Bool.false_and, Bool.false_eq_true,
      if_false, if_true]
  rw [e1]
  have hflchain := h.hfl
  rw [hfldec] at hflchain
  have hsepfl : List.Pairwise sep4 (f1 ++ q :: f2) := by
    rw [← hfldec]
    exact sep4_fl_of h.hbs h.hnodup h.hsub hfl_min
  have hrem1 := remove_block_fl s f1 f2 q hflchain hsepfl
  have hqf12 : q ∉ f1 ++ f2 := by
    intro hqmem2
    have hnfl := h.hnodup
    rw [hfldec] at hnfl
    rcases List.mem_append.mp hqmem2 with h1 | h1
    · exact (List.nodup_append.mp hnfl).2.2 h1 (by simp)
    · exact (List.nodup_cons.mp
        (hnfl.sublist (List.sublist_append_right f1 (q :: f2)))).1 h1
  have hcf12 : c ∈ f1 ++ f2 := by
    have hcq : c ∈ f1 ++ q :: f2 := by rw [← hfldec]; exact hcfl
    rcases List.mem_append.mp hcq with h1 | h1
    · exact List.mem_append.mpr (Or.inl h1)
    · rcases List.mem_cons.mp h1 with h2 | h2
      · exact absurd h2 hqc.symm
      · exact List.mem_append.mpr (Or.inr h2)
  obtain ⟨g1, g2, hgdec⟩ := List.append_of_mem hcf12
  have hnf12 : (f1 ++ f2).Nodup := by
    have hnfl := h.hnodup
    rw [hfldec] at hnfl
    exact hnfl.sublist (List.Sublist.append_left (List.sublist_cons_self q f2) f1)
  have hsep12 : List.Pairwise sep4 (g1 ++ c :: g2) := by
    rw [← hgdec]
    exact hsepfl.sublist (List.Sublist.append_left (List.sublist_cons_self q f2) f1)
  have hmemfl : ∀ x, x ∈ g1 ++ c :: g2 → x ∈ fl := by
    intro x hx
    rw [← hgdec] at hx
    rw [hfldec]
    rcases List.mem_append.mp hx with h1 | h1
    · exact List.mem_append.mpr (Or.inl h1)
    · exact List.mem_append.mpr (Or.inr (List.mem_cons_of_mem q h1))
  have hrem1' : chainSeg (remove_block s q) 0
      (remove_block s q).free_list_head (g1 ++ c :: g2) := by
    rw [← hgdec]
    exact hrem1
  have hrem2 := remove_block_fl (remove_block s q) g1 g2 c hrem1' hsep12
  have hRfr1 : ∀ i, (∀ x ∈ fl, i ≠ x + 1 ∧ i ≠ x + 2) →
      readW (remove_block s q) i = readW s i := by
    intro i hi
    refine remove_block_fl_frame s f1 f2 q i hflchain (fun x hx => hi x ?_)
    rw [hfldec]; exact hx
  have hRfr : ∀ i, (∀ x ∈ fl, i ≠ x + 1 ∧ i ≠ x + 2) →
      readW (remove_block (remove_block s q) c) i = readW s i := by
    intro i hi
    rw [remove_block_fl_frame (remove_block s q) g1 g2 c i hrem1'
      (fun x hx => hi x (hmemfl x hx))]
    exact hRfr1 i hi
  set s3 := write_footer (write_header (remove_block (remove_block s q) c) q
    (get_size s b + get_size s q + get_size s c) false) q
    (get_size s b + get_size s q + get_size s c) false with hs3
  have hr3 : ∀ i, readW s3 i =
      if i = q + (get_size s b + get_size s q + get_size s c) / 8 - 1 then
        pack (get_size s b + get_size s q + get_size s c) false
      else if i = q then
        pack (get_size s b + get_size s q + get_size s c) false
      else readW (remove_block (remove_block s q) c) i := by
    rw [hs3]
    exact (mark_reads (remove_block (remove_block s q) c) q _ false hM16
      (by omega) hMlt).1
  have hlen3 : s3.len = s.len := by
    rw [hs3, (mark_reads (remove_block (remove_block s q) c) q _ false hM16
      (by omega) hMlt).2.1, remove_block_len, remove_block_len]
  have hhead3 : s3.free_list_head =
      (remove_block (remove_block s q) c).free_list_head := by
    rw [hs3]
    exact (mark_reads (remove_block (remove_block s q) c) q _ false hM16
      (by omega) hMlt).2.2
  have hfr3 : ∀ i, i ≠ q → i ≠ c + get_size s c / 8 - 1 →
      (∀ x ∈ fl, i ≠ x + 1 ∧ i ≠ x + 2) → readW s3 i = readW s i := by
    intro i hiq hifc hilinks
    rw [hr3 i, if_neg (show
      ¬(i = q + (get_size s b + get_size s q + get_size s c) / 8 - 1) by
      omega), if_neg hiq]
    exact hRfr i hilinks
  have hfrH : ∀ y ∈ bs, y ≠ q → readW s3 y = readW s y := by
    intro y hy hyq
    have hy32 := h.hmin y hy
    have hy16 := (blocksSeg_mem_size h.hbs y hy).1
    refine hfr3 y hyq ?_ (fun x hx => ⟨((havoid x hx 1 (Or.inl rfl)).1 y hy).1,
      ((havoid x hx 2 (Or.inr rfl)).1 y hy).1⟩)
    by_cases hyc : y = c
    · omega
    · exact span_cells_ne_of h.hbs hy hcm hyc le_rfl (by omega) (by omega)
        (by omega)
  have hfrF : ∀ y ∈ bs, y ≠ q → y ≠ c →
      readW s3 (y + get_size s y / 8 - 1) = readW s (y + get_size s y / 8 - 1) := by
    intro y hy hyq hyc
    have hy32 := h.hmin y hy
    have hy16 := (blocksSeg_mem_size h.hbs y hy).1
    refine hfr3 _ ?_ ?_ (fun x hx => ⟨((havoid x hx 1 (Or.inl rfl)).1 y hy).2,
      ((havoid x hx 2 (Or.inr rfl)).1 y hy).2⟩)
    · exact span_cells_ne_of h.hbs hy hqm hyq (by omega) (by omega) le_rfl
        (by omega)
    · exact span_cells_ne_of h.hbs hy hcm hyc (by omega) (by omega) (by omega)
        (by omega)
  have hfrP : readW s3 0 = readW s 0 := by
    refine hfr3 0 (by omega) (by omega) (fun x hx =>
      ⟨(havoid x hx 1 (Or.inl rfl)).2.1, (havoid x hx 2 (Or.inr rfl)).2.1⟩)
  have hfrE : readW s3 (s.len - 1) = readW s (s.len - 1) := by
    refine hfr3 _ ?_ (by omega) (fun x hx =>
      ⟨(havoid x hx 1 (Or.inl rfl)).2.2, (havoid x hx 2 (Or.inr rfl)).2.2⟩)
    have := cell_lt_epi_of h.hbs hqm (show q < q + get_size s q / 8 by omega)
    omega
  have hreadq : readW s3 q = get_size s b + get_size s q + get_size s c := by
    rw [hr3 q, if_neg (show
      ¬(q = q + (get_size s b + get_size s q + get_size s c) / 8 - 1) by
      omega), if_pos rfl, pack_false_eq]
  have hreadf : readW s3
      (q + (get_size s b + get_size s q + get_size s c) / 8 - 1) =
      get_size s b + get_size s q + get_size s c := by
    rw [hr3 _, if_pos rfl, pack_false_eq]
  have hgetq : get_size s3 q = get_size s b + get_size s q + get_size s c := by
    show extract_size _ = _
    rw [hreadq]
    exact extract_size_self _ hM16 hMlt
  have hallocq : get_alloc s3 q = false := by
    show extract_alloc _ = _
    rw [hreadq]
    exact extract_alloc_eq_false _ (by omega)
  have hget3 : ∀ y ∈ bs, y ≠ q → get_size s3 y = get_size s y := by
    intro y hy hyq
    show extract_size _ = _
    rw [hfrH y hy hyq]
    rfl
  have halloc3 : ∀ y ∈ bs, y ≠ q → get_alloc s3 y = get_alloc s y := by
    intro y hy hyq
    show extract_alloc _ = _
    rw [hfrH y hy hyq]
    rfl
  have hndd := hnd
  rw [hdec] at hndd
  obtain ⟨hnd1, hnd2, hdisj⟩ := List.nodup_append.mp hndd
  have hqm1 : q ∉ m1' := fun hb => hdisj hb (by simp)
  have hbm1 : b ∉ m1' := fun hb => hdisj hb (by simp)
  have hcm1 : c ∉ m1' := fun hb => hdisj hb (by simp)
  have hnd2' := (List.nodup_cons.mp hnd2).2
  have hnd2'' := (List.nodup_cons.mp hnd2').2
  have hqm2 : q ∉ m2' := fun hb =>
    (List.nodup_cons.mp hnd2).1 (by simp [hb])
  have hbm2 : b ∉ m2' := fun hb =>
    (List.nodup_cons.mp hnd2').1 (by simp [hb])
  have hcm2 : c ∉ m2' := (List.nodup_cons.mp hnd2'').1
  have hcg12 : c ∉ g1 ++ g2 := by
    intro hcmem2
    have hng : (g1 ++ c :: g2).Nodup := by
      rw [← hgdec]
      exact hnf12
    rcases List.mem_append.mp hcmem2 with h1 | h1
    · exact (List.nodup_append.mp hng).2.2 h1 (by simp)
    · exact (List.nodup_cons.mp
        (hng.sublist (List.sublist_append_right g1 (c :: g2)))).1 h1
  have hmemg : ∀ y, y ∈ g1 ++ g2 → y ∈ fl := by
    intro y hy
    refine hmemfl y ?_
    rcases List.mem_append.mp hy with h1 | h1
    · exact List.mem_append.mpr (Or.inl h1)
    · exact List.mem_append.mpr (Or.inr (List.mem_cons_of_mem c h1))
  have hmem_bs' : ∀ y, y ∈ m1' ++ q :: m2' → y ∈ bs := by
    intro y hy
    rw [hdec]
    rcases List.mem_append.mp hy with h1 | h1
    · exact List.mem_append.mpr (Or.inl h1)
    · rcases List.mem_cons.mp h1 with h2 | h2
      · exact List.mem_append.mpr (Or.inr (by rw [h2]; simp))
      · exact List.mem_append.mpr (Or.inr (by simp [h2]))
  have hne_b : ∀ y, y ∈ m1' ++ q :: m2' → y ≠ b := by
    intro y hy he
    rw [he] at hy
    rcases List.mem_append.mp hy with h1 | h1
    · exact hbm1 h1
    · rcases List.mem_cons.mp h1 with h2 | h2
      · exact hqbne h2.symm
      · exact hbm2 h2
  have hne_c : ∀ y, y ∈ m1' ++ q :: m2' → y ≠ c := by
    intro y hy he
    rw [he] at hy
    rcases List.mem_append.mp hy with h1 | h1
    · exact hcm1 h1
    · rcases List.mem_cons.mp h1 with h2 | h2
      · exact hqc h2.symm
      · exact hcm2 h2
  have hfl3 : chainSeg s3 0 s3.free_list_head (g1 ++ g2) := by
    rw [hhead3]
    refine chainSeg_congr (fun x hx => ?_) hrem2
    have hxfl : x ∈ fl := hmemg x hx
    have hx1q := ((havoid x hxfl 1 (Or.inl rfl)).1 q hqm).1
    have hx2q := ((havoid x hxfl 2 (Or.inr rfl)).1 q hqm).1
    have hx1c := ((havoid x hxfl 1 (Or.inl rfl)).1 c hcm).2
    have hx2c := ((havoid x hxfl 2 (Or.inr rfl)).1 c hcm).2
    constructor
    · rw [hr3, if_neg (by omega), if_neg (by omega)]
    · rw [hr3, if_neg (by omega), if_neg (by omega)]
  have hadw := h.hadjw
  rw [hdec] at hadw
  obtain ⟨hch1, hch2, hql, hcr⟩ := chain'_split3 hadw
  obtain ⟨hpairb, hch2'⟩ := List.chain'_cons'.mp hch2
  obtain ⟨hpairc, hch2''⟩ := List.chain'_cons'.mp hch2'
  have hstrong : List.Chain' (fun x y => get_alloc s3 x = true ∨
      get_alloc s3 y = true) (m1' ++ q :: m2') := by
    refine chain'_glue ?_ ?_ ?_ ?_
    · exact chain'_weak_strong hch1 hbm1 (fun x hx => halloc3 x
        (hmem_bs' x (List.mem_append_left _ hx)) (fun he => hqm1 (he ▸ hx)))
    · exact chain'_weak_strong hch2'' hbm2 (fun x hx => halloc3 x
        (hmem_bs' x (List.mem_append_right _ (List.mem_cons_of_mem q hx)))
        (fun he => hqm2 (he ▸ hx)))
    · intro p hp
      have hpm : p ∈ m1' := by
        rcases List.eq_nil_or_concat m1' with hm | ⟨m1'', a, hm1⟩
        · rw [hm] at hp; simp at hp
        · rw [List.concat_eq_append] at hm1
          rw [hm1, List.getLast?_concat] at hp
          rw [hm1]
          have e : a = p := Option.some.inj hp
          rw [← e]; simp
      have hpair := hql p hp
      have hpb : p ≠ b := fun he => hbm1 (he ▸ hpm)
      have hpq : p ≠ q := fun he => hqm1 (he ▸ hpm)
      rcases hpair with h1 | h1 | h1 | h1
      · exact absurd h1 hpb
      · exact absurd h1 (by omega)
      · refine Or.inl ?_
        rw [halloc3 p (hmem_bs' p (List.mem_append_left _ hpm)) hpq]
        exact h1
      · rw [hqal] at h1
        exact absurd h1 (by simp)
    · intro d hd
      have hdm : d ∈ m2' := by
        cases m2' with
        | nil => simp at hd
        | cons x xs =>
          have e : x = d := Option.some.inj hd
          rw [← e]; simp
      have hpair := hpairc d hd
      have hdb : d ≠ b := fun he => hbm2 (he ▸ hdm)
      rcases hpair with h1 | h1 | h1 | h1
      · exact absurd h1 (by omega)
      · exact absurd h1 hdb
      · rw [hcal] at h1
        exact absurd h1 (by simp)
      · refine Or.inr ?_
        rw [halloc3 d (hmem_bs' d (List.mem_append_right _
          (List.mem_cons_of_mem q hdm))) (fun he => hqm2 (he ▸ hdm))]
        exact h1
  refine ⟨m1' ++ q :: m2', q :: (g1 ++ g2), insert_invdata
    ⟨?_, ?_, ?_, ?_, ?_, ?_, ?_, ?_, ?_, ?_, ?_, ?_, ?_, ?_, ?_, ?_⟩⟩
  · rw [hlen3]; exact h.hlen
  · rw [hlen3]; exact h.hcap
  · rw [hfrP]; exact h.hpro
  · rw [hlen3, hfrE]; exact h.hepi
  · show blocksSeg s3 (s3.len - 1) 1 (m1' ++ q :: m2')
    rw [hlen3]
    refine blocksSeg_merge3 (s := s) (b := b) (c := c) ?_ ?_ ?_
    · rw [← hdec]; exact h.hbs
    · intro y hy
      rcases List.mem_append.mp hy with h1 | h1
      · exact hget3 y (hmem_bs' y (List.mem_append_left _ h1))
          (fun he => hqm1 (he ▸ h1))
      · exact hget3 y (hmem_bs' y (List.mem_append_right _
          (List.mem_cons_of_mem q h1))) (fun he => hqm2 (he ▸ h1))
    · rw [hgetq]; omega
  · intro y hy
    by_cases hyq : y = q
    · rw [hyq, hreadq, hgetq, hallocq, pack_false_eq]
    · have hybs := hmem_bs' y hy
      rw [hfrH y hybs hyq, hget3 y hybs hyq, halloc3 y hybs hyq]
      exact h.hhdr y hybs
  · intro y hy
    by_cases hyq : y = q
    · rw [hyq, hgetq, hreadf, hreadq]
    · have hybs := hmem_bs' y hy
      rw [hget3 y hybs hyq, hfrF y hybs hyq (hne_c y hy), hfrH y hybs hyq]
      exact h.hftr y hybs
  · intro y hy
    by_cases hyq : y = q
    · rw [hyq, hgetq]; omega
    · rw [hget3 y (hmem_bs' y hy) hyq]
      exact h.hmin y (hmem_bs' y hy)
  · exact hfl3
  · have hng : (g1 ++ c :: g2).Nodup := by
      rw [← hgdec]
      exact hnf12
    exact hng.sublist (List.Sublist.append_left (List.sublist_cons_self c g2) g1)
  · intro y hy
    have hyfl : y ∈ fl := hmemg y hy
    have hybs := h.hsub y hyfl
    have hyq : y ≠ q := by
      intro he
      refine hqf12 ?_
      rw [hgdec, ← he]
      rcases List.mem_append.mp hy with h1 | h1
      · exact List.mem_append.mpr (Or.inl h1)
      · exact List.mem_append.mpr (Or.inr (List.mem_cons_of_mem c h1))
    have hyc : y ≠ c := fun he => hcg12 (he ▸ hy)
    have hyb : y ≠ b := fun he => h.hbnot (he ▸ hyfl)
    rw [hdec] at hybs
    rcases List.mem_append.mp hybs with h1 | h1
    · exact List.mem_append.mpr (Or.inl h1)
    · rcases List.mem_cons.mp h1 with h2 | h2
      · exact absurd h2 hyq
      · rcases List.mem_cons.mp h2 with h3 | h3
        · exact absurd h3 hyb
        · rcases List.mem_cons.mp h3 with h4 | h4
          · exact absurd h4 hyc
          · exact List.mem_append.mpr (Or.inr (List.mem_cons_of_mem q h4))
  · simp
  · exact hallocq
  · intro hb
    exact hqf12 (by
      rw [hgdec]
      rcases List.mem_append.mp hb with h1 | h1
      · exact List.mem_append.mpr (Or.inl h1)
      · exact List.mem_append.mpr (Or.inr (List.mem_cons_of_mem c h1)))
  · intro y hy hyq
    have hybs := hmem_bs' y hy
    have hyb := hne_b y hy
    have hyc := hne_c y hy
    rw [halloc3 y hybs hyq, h.hfree y hybs hyb, hfldec]
    constructor
    · intro hm
      have hm12 : y ∈ f1 ++ f2 := by
        rcases List.mem_append.mp hm with h1 | h1
        · exact List.mem_append.mpr (Or.inl h1)
        · rcases List.mem_cons.mp h1 with h2 | h2
          · exact absurd h2 hyq
          · exact List.mem_append.mpr (Or.inr h2)
      rw [hgdec] at hm12
      rcases List.mem_append.mp hm12 with h1 | h1
      · exact List.mem_append.mpr (Or.inl h1)
      · rcases List.mem_cons.mp h1 with h2 | h2
        · exact absurd h2 hyc
        · exact List.mem_append.mpr (Or.inr h2)
    · intro hm
      have hm12 : y ∈ f1 ++ f2 := by
        rw [hgdec]
        rcases List.mem_append.mp hm with h1 | h1
        · exact List.mem_append.mpr (Or.inl h1)
        · exact List.mem_append.mpr (Or.inr (List.mem_cons_of_mem c h1))
      rcases List.mem_append.mp hm12 with h1 | h1
      · exact List.mem_append.mpr (Or.inl h1)
      · exact List.mem_append.mpr (Or.inr (List.mem_cons_of_mem q h1))
  · exact hstrong

/-- `coalesce_block` restores the full invariant from any pre-coalesce
configuration: the four neighbour cases of the code are dispatched by
identifying the neighbours in the parse. -/
theorem coalesce_invdata {s : Heap} {bs fl : List Nat} {b : Nat}
    (h : PreCoalesce s bs fl b) : Inv (coalesce_block s b).1 := by
  obtain ⟨m1, m2, hdec⟩ := List.append_of_mem h.hbmem
  cases m2 with
  | nil =>
    have hna : get_alloc s (find_next s b) = true := by
      show extract_alloc (readW s (find_next s b)) = true
      rw [next_is_epilogue h.hbs hdec, h.hepi]
      rfl
    rcases List.eq_nil_or_concat m1 with hm | ⟨m1'', a, hm1⟩
    · have hpp := prev_is_prologue h.hbs
        (show bs = b :: ([] : List Nat) by rw [hdec, hm]; rfl)
      have hpa : extract_alloc (readW s (find_prev_footer b)) = true := by
        rw [hpp.2, h.hpro]
        rfl
      exact ⟨bs, b :: fl, coalesce_case4 h hpa hna⟩
    · rw [List.concat_eq_append] at hm1
      have ham : a ∈ bs := by rw [hdec, hm1]; simp
      have hpr := prev_block_reads h.hbs (h.hhdr a ham) (h.hftr a ham)
        (show bs = m1'' ++ a :: b :: ([] : List Nat) by rw [hdec, hm1]; simp)
      have h16a := (blocksSeg_mem_size h.hbs a ham).1
      by_cases haal : get_alloc s a = true
      · have hpa : extract_alloc (readW s (find_prev_footer b)) = true := by
          rw [hpr.2.1, extract_alloc_pack _ _ h16a]
          exact haal
        exact ⟨bs, b :: fl, coalesce_case4 h hpa hna⟩
      · have haal' : get_alloc s a = false := by
          simp only [Bool.not_eq_true] at haal
          exact haal
        exact coalesce_case2 h (show bs = m1'' ++ a :: b :: ([] : List Nat) by
          rw [hdec, hm1]; simp) haal' hna
  | cons c m2' =>
    have hnx : find_next s b = c := next_block_at h.hbs hdec
    by_cases hcal : get_alloc s c = true
    · have hna : get_alloc s (find_next s b) = true := by rw [hnx]; exact hcal
      rcases List.eq_nil_or_concat m1 with hm | ⟨m1'', a, hm1⟩
      · have hpp := prev_is_prologue h.hbs
          (show bs = b :: c :: m2' by rw [hdec, hm]; rfl)
        have hpa : extract_alloc (readW s (find_prev_footer b)) = true := by
          rw [hpp.2, h.hpro]
          rfl
        exact ⟨bs, b :: fl, coalesce_case4 h hpa hna⟩
      · rw [List.concat_eq_append] at hm1
        have ham : a ∈ bs := by rw [hdec, hm1]; simp
        have hpr := prev_block_reads h.hbs (h.hhdr a ham) (h.hftr a ham)
          (show bs = m1'' ++ a :: b :: (c :: m2') by rw [hdec, hm1]; simp)
        have h16a := (blocksSeg_mem_size h.hbs a ham).1
        by_cases haal : get_alloc s a = true
        · have hpa : extract_alloc (readW s (find_prev_footer b)) = true := by
            rw [hpr.2.1, extract_alloc_pack _ _ h16a]
            exact haal
          exact ⟨bs, b :: fl, coalesce_case4 h hpa hna⟩
        · have haal' : get_alloc s a = false := by
            simp only [Bool.not_eq_true] at haal
            exact haal
          exact coalesce_case2 h (show bs = m1'' ++ a :: b :: (c :: m2') by
            rw [hdec, hm1]; simp) haal' hna
    · have hcal' : get_alloc s c = false := by
        simp only [Bool.not_eq_true] at hcal
        exact hcal
      rcases List.eq_nil_or_concat m1 with hm | ⟨m1'', a, hm1⟩
      · have hpp := prev_is_prologue h.hbs
          (show bs = b :: c :: m2' by rw [hdec, hm]; rfl)
        have hpa : extract_alloc (readW s (find_prev_footer b)) = true := by
          rw [hpp.2, h.hpro]
          rfl
        exact coalesce_case1 h hdec hpa hcal'
      · rw [List.concat_eq_append] at hm1
        have ham : a ∈ bs := by rw [hdec, hm1]; simp
        have hpr := prev_block_reads h.hbs (h.hhdr a ham) (h.hftr a ham)
          (show bs = m1'' ++ a :: b :: (c :: m2') by rw [hdec, hm1]; simp)
        have h16a := (blocksSeg_mem_size h.hbs a ham).1
        by_cases haal : get_alloc s a = true
        · have hpa : extract_alloc (readW s (find_prev_footer b)) = true := by
            rw [hpr.2.1, extract_alloc_pack _ _ h16a]
            exact haal
          exact coalesce_case1 h hdec hpa hcal'
        · have haal' : get_alloc s a = false := by
            simp only [Bool.not_eq_true] at haal
            exact haal
          exact coalesce_case3 h (show bs = m1'' ++ a :: b :: c :: m2' by
            rw [hdec, hm1]; simp) haal' hcal'

/-! Operation-level invariant preservation. -/

/-- Removing a free block from the free list and marking it allocated
(the first half of `mm_malloc`'s placement) restores the invariant with
the block dropped from the free list. -/
theorem remove_mark_invdata (s : Heap) (bs l1 l2 : List Nat) (b : Nat)
    (h : InvData s bs (l1 ++ b :: l2)) :
    InvData (write_footer (write_header (remove_block s b) b (get_size s b) true) b
        (get_size s b) true) bs (l1 ++ l2) ∧
      (write_footer (write_header (remove_block s b) b (get_size s b) true) b
        (get_size s b) true).len = s.len ∧
      (∀ y ∈ bs, get_size (write_footer (write_header (remove_block s b) b
        (get_size s b) true) b (get_size s b) true) y = get_size s y) ∧
      (∀ y ∈ bs, y ≠ b → get_alloc (write_footer (write_header (remove_block s b) b
        (get_size s b) true) b (get_size s b) true) y = get_alloc s y) ∧
      get_alloc (write_footer (write_header (remove_block s b) b
        (get_size s b) true) b (get_size s b) true) b = true ∧
      (write_footer (write_header (remove_block s b) b (get_size s b) true) b
        (get_size s b) true).free_list_head = (remove_block s b).free_list_head := by
  have hbfl : b ∈ l1 ++ b :: l2 := by simp
  have hbmem : b ∈ bs := h.hsub b hbfl
  obtain ⟨hsz32, hsz16, hszlt⟩ := size_facts_of h.hbs h.hmin hbmem
  have hsz8 : 4 ≤ get_size s b / 8 := by omega
  have havoid := link_cell_avoid h.hbs h.hsub h.fl_min h.hmin
  -- facts about the unlink step
  have hfr1 : ∀ i, (∀ x ∈ l1 ++ b :: l2, i ≠ x + 1 ∧ i ≠ x + 2) →
      readW (remove_block s b) i = readW s i := fun i hi =>
    remove_block_fl_frame s l1 l2 b i h.hfl hi
  have hfr1H : ∀ y ∈ bs, readW (remove_block s b) y = readW s y := by
    intro y hy
    refine hfr1 y (fun x hx => ?_)
    exact ⟨((havoid x hx 1 (Or.inl rfl)).1 y hy).1,
      ((havoid x hx 2 (Or.inr rfl)).1 y hy).1⟩
  have hfr1F : ∀ y ∈ bs, readW (remove_block s b) (y + get_size s y / 8 - 1) =
      readW s (y + get_size s y / 8 - 1) := by
    intro y hy
    refine hfr1 _ (fun x hx => ?_)
    exact ⟨((havoid x hx 1 (Or.inl rfl)).1 y hy).2,
      ((havoid x hx 2 (Or.inr rfl)).1 y hy).2⟩
  have hfr1P : readW (remove_block s b) 0 = readW s 0 := by
    refine hfr1 0 (fun x hx => ?_)
    exact ⟨(havoid x hx 1 (Or.inl rfl)).2.1, (havoid x hx 2 (Or.inr rfl)).2.1⟩
  have hfr1E : readW (remove_block s b) (s.len - 1) = readW s (s.len - 1) := by
    refine hfr1 _ (fun x hx => ?_)
    exact ⟨(havoid x hx 1 (Or.inl rfl)).2.2, (havoid x hx 2 (Or.inr rfl)).2.2⟩
  have hget1 : ∀ y ∈ bs, get_size (remove_block s b) y = get_size s y := by
    intro y hy
    show extract_size (readW (remove_block s b) y) = _
    rw [hfr1H y hy]
    rfl
  have hchain1 := remove_block_fl s l1 l2 b h.hfl h.sep4_fl
  have hlen1 := remove_block_len s b
  -- the marking writes
  have hget2b : get_size (write_header (remove_block s b) b (get_size s b) true) b
      = get_size s b := by
    show extract_size (readW _ b) = _
    rw [write_header]
    simp only [readW_writeW, if_pos rfl]
    exact extract_size_pack _ true hsz16 hszlt
  have hftridx : header_to_footer (write_header (remove_block s b) b
      (get_size s b) true) b = b + get_size s b / 8 - 1 := by
    rw [header_to_footer, hget2b, dsize]
    exact footer_idx b (get_size s b) hsz16 (by omega)
  have hfne : b + get_size s b / 8 - 1 ≠ b := by omega
  have hread3 : ∀ i, readW (write_footer (write_header (remove_block s b) b
      (get_size s b) true) b (get_size s b) true) i =
      if i = b + get_size s b / 8 - 1 then pack (get_size s b) true
      else if i = b then pack (get_size s b) true
      else readW (remove_block s b) i := by
    intro i
    rw [write_footer, hftridx, write_header]
    simp only [readW_writeW]
  have hlen3 : (write_footer (write_header (remove_block s b) b (get_size s b) true) b
      (get_size s b) true).len = s.len := by
    rw [write_footer, write_header]
    simp only [writeW_len]
    exact hlen1
  have hhead3 : (write_footer (write_header (remove_block s b) b (get_size s b) true) b
      (get_size s b) true).free_list_head = (remove_block s b).free_list_head := by
    rw [write_footer, write_header]
    simp only [writeW_head]
  -- reads at protected places
  have hread3H : ∀ y ∈ bs, y ≠ b → readW (write_footer (write_header
      (remove_block s b) b (get_size s b) true) b (get_size s b) true) y = readW s y := by
    intro y hy hne
    rw [hread3]
    have g1 : y ≠ b + get_size s b / 8 - 1 :=
      span_cells_ne_of h.hbs hy hbmem hne le_rfl
        (by have := (blocksSeg_mem_size h.hbs y hy); omega) (by omega) (by omega)
    rw [if_neg g1, if_neg hne]
    exact hfr1H y hy
  have hread3b : readW (write_footer (write_header (remove_block s b) b
      (get_size s b) true) b (get_size s b) true) b = pack (get_size s b) true := by
    rw [hread3, if_neg (by omega : ¬(b = b + get_size s b / 8 - 1)), if_pos rfl]
  have hread3F : ∀ y ∈ bs, y ≠ b → readW (write_footer (write_header
      (remove_block s b) b (get_size s b) true) b (get_size s b) true)
      (y + get_size s y / 8 - 1) = readW s (y + get_size s y / 8 - 1) := by
    intro y hy hne
    have hy32 := h.hmin y hy
    have hy8 : 4 ≤ get_size s y / 8 := by
      have := (blocksSeg_mem_size h.hbs y hy).1
      omega
    rw [hread3]
    have g1 : y + get_size s y / 8 - 1 ≠ b + get_size s b / 8 - 1 :=
      span_cells_ne_of h.hbs hy hbmem hne (by omega) (by omega) (by omega) (by omega)
    have g2 : y + get_size s y / 8 - 1 ≠ b :=
      span_cells_ne_of h.hbs hy hbmem hne (by omega) (by omega) le_rfl (by omega)
    rw [if_neg g1, if_neg g2]
    exact hfr1F y hy
  have hget3 : ∀ y ∈ bs, get_size (write_footer (write_header (remove_block s b) b
      (get_size s b) true) b (get_size s b) true) y = get_size s y := by
    intro y hy
    by_cases hne : y = b
    · subst hne
      show extract_size _ = _
      rw [hread3b]
      exact extract_size_pack _ true hsz16 hszlt
    · show extract_size _ = _
      rw [hread3H y hy hne]
      rfl
  have halloc3 : ∀ y ∈ bs, y ≠ b → get_alloc (write_footer (write_header
      (remove_block s b) b (get_size s b) true) b (get_size s b) true) y =
      get_alloc s y := by
    intro y hy hne
    show extract_alloc _ = _
    rw [hread3H y hy hne]
    rfl
  have halloc3b : get_alloc (write_footer (write_header (remove_block s b) b
      (get_size s b) true) b (get_size s b) true) b = true := by
    show extract_alloc _ = _
    rw [hread3b]
    exact extract_alloc_pack _ true hsz16
  have hnodup' : (l1 ++ l2).Nodup :=
    h.hnodup.sublist (List.Sublist.append_left (List.sublist_cons_self b l2) l1)
  have hbnotin : b ∉ l1 ++ l2 := by
    intro hb
    rcases List.mem_append.mp hb with h1 | h1
    · have hd := (List.nodup_append.mp h.hnodup).2.2
      exact hd h1 (by simp)
    · have hd := (h.hnodup.sublist (List.sublist_append_right l1 (b :: l2)))
      exact (List.nodup_cons.mp hd).1 h1
  refine ⟨⟨?_, ?_, ?_, ?_, ?_, ?_, ?_, ?_, ?_, ?_, ?_, ?_, ?_⟩, hlen3, hget3, halloc3,
    halloc3b, hhead3⟩
  · rw [hlen3]; exact h.hlen
  · rw [hlen3]; exact h.hcap
  · rw [hread3, if_neg (by omega), if_neg (by have := (bs_pos_of h.hbs b hbmem).1; omega)]
    rw [hfr1P]; exact h.hpro
  · rw [hlen3, hread3]
    have g1 : s.len - 1 ≠ b + get_size s b / 8 - 1 := by
      have := cell_lt_epi_of h.hbs hbmem (show b + get_size s b / 8 - 1 <
        b + get_size s b / 8 by omega)
      omega
    have g2 : s.len - 1 ≠ b := by
      have := cell_lt_epi_of h.hbs hbmem (show b < b + get_size s b / 8 by omega)
      omega
    rw [if_neg g1, if_neg g2, hfr1E]
    exact h.hepi
  · show blocksSeg _ _ 1 bs
    rw [hlen3]
    exact blocksSeg_congr hget3 h.hbs
  · intro y hy
    by_cases hne : y = b
    · subst hne
      rw [hread3b, hget3 y hy, halloc3b]
    · rw [hread3H y hy hne, hget3 y hy, halloc3 y hy hne]
      exact h.hhdr y hy
  · intro y hy
    rw [hget3 y hy]
    by_cases hne : y = b
    · have hfval : readW (write_footer (write_header (remove_block s b) b
          (get_size s b) true) b (get_size s b) true)
          (b + get_size s b / 8 - 1) = pack (get_size s b) true := by
        rw [hread3, if_pos rfl]
      rw [hne, hfval, hread3b]
    · rw [hread3F y hy hne, hread3H y hy hne]
      exact h.hftr y hy
  · intro y hy
    rw [hget3 y hy]
    exact h.hmin y hy
  · rw [hhead3]
    refine chainSeg_congr (fun x hx => ?_) hchain1
    have hxfl : x ∈ l1 ++ b :: l2 := by
      rcases List.mem_append.mp hx with h1 | h1
      · exact List.mem_append.mpr (Or.inl h1)
      · exact List.mem_append.mpr (Or.inr (List.mem_cons_of_mem b h1))
    have hxbs := h.hsub x hxfl
    have hx32 := h.fl_min x hxfl
    have hx8 : 4 ≤ get_size s x / 8 := by
      have := (blocksSeg_mem_size h.hbs x hxbs).1
      omega
    have hxb : x ≠ b := fun hxb => hbnotin (hxb ▸ hx)
    constructor
    · rw [hread3]
      have g1 : x + 1 ≠ b + get_size s b / 8 - 1 :=
        span_cells_ne_of h.hbs hxbs hbmem hxb (by omega) (by omega) (by omega) (by omega)
      have g2 : x + 1 ≠ b :=
        span_cells_ne_of h.hbs hxbs hbmem hxb (by omega) (by omega) le_rfl (by omega)
      rw [if_neg g1, if_neg g2]
    · rw [hread3]
      have g1 : x + 2 ≠ b + get_size s b / 8 - 1 :=
        span_cells_ne_of h.hbs hxbs hbmem hxb (by omega) (by omega) (by omega) (by omega)
      have g2 : x + 2 ≠ b :=
        span_cells_ne_of h.hbs hxbs hbmem hxb (by omega) (by omega) le_rfl (by omega)
      rw [if_neg g1, if_neg g2]
  · exact hnodup'
  · intro x hx
    refine h.hsub x ?_
    rcases List.mem_append.mp hx with h1 | h1
    · exact List.mem_append.mpr (Or.inl h1)
    · exact List.mem_append.mpr (Or.inr (List.mem_cons_of_mem b h1))
  · intro y hy
    by_cases hne : y = b
    · rw [hne, halloc3b]
      constructor
      · intro hfalse
        exact absurd hfalse (by simp)
      · intro hmem
        exact absurd hmem hbnotin
    · rw [halloc3 y hy hne]
      rw [h.hfree y hy]
      constructor
      · intro hmem
        rcases List.mem_append.mp hmem with h1 | h1
        · exact List.mem_append.mpr (Or.inl h1)
        · rcases List.mem_cons.mp h1 with h2 | h2
          · exact absurd h2 hne
          · exact List.mem_append.mpr (Or.inr h2)
      · intro hmem
        rcases List.mem_append.mp hmem with h1 | h1
        · exact List.mem_append.mpr (Or.inl h1)
        · exact List.mem_append.mpr (Or.inr (List.mem_cons_of_mem b h1))
  · refine chain'_mem_imp h.hadj (fun x hx y hy hr => ?_)
    by_cases hxb : x = b
    · subst hxb
      exact Or.inl halloc3b
    · by_cases hyb : y = b
      · subst hyb
        exact Or.inr halloc3b
      · rcases hr with h1 | h1
        · exact Or.inl (by rw [halloc3 x hx hxb]; exact h1)
        · exact Or.inr (by rw [halloc3 y hy hyb]; exact h1)

/-! Claim theorems. -/

/-- C10: calling `remove_block` on any block while the free list head is
null returns the state unchanged (the free list head and every block's
link words are untouched): the guard at the top of `remove_block` makes
the call a no-op. -/
theorem remove_block_no_op_on_empty_list (s : Heap) (b : Nat)
    (h : s.free_list_head = 0) : remove_block s b = s := by
  simp [remove_block, h]

theorem remove_block_no_op_on_empty_list_witness :
    emptyHeap.free_list_head = 0 ∧ remove_block emptyHeap 5 = emptyHeap :=
  ⟨rfl, remove_block_no_op_on_empty_list emptyHeap 5 rfl⟩

/-- C8: for a block linked in a non-empty free list (its links point at
distinct well-separated neighbours), `remove_block` splices it out: the
prev and next neighbours are relinked around it, the head is updated to
the next neighbour exactly when the removed block is the head (prev link
null), the removed block's own two link words are not modified, and no
word outside the two relink targets is written. -/
theorem remove_block_splices (s : Heap) (b p n : Nat)
    (hp : readW s (b + 1) = p) (hn : readW s (b + 2) = n)
    (hhead : s.free_list_head ≠ 0)
    (hpb : p ≠ 0 → p + 2 ≠ b + 1 ∧ p + 2 ≠ b + 2)
    (hnb : n ≠ 0 → n + 1 ≠ b + 1 ∧ n + 1 ≠ b + 2)
    (hpn : p ≠ 0 → n ≠ 0 → p + 2 ≠ n + 1) :
    readW (remove_block s b) (b + 1) = p ∧
    readW (remove_block s b) (b + 2) = n ∧
    (p ≠ 0 → readW (remove_block s b) (p + 2) = n) ∧
    (n ≠ 0 → readW (remove_block s b) (n + 1) = p) ∧
    (remove_block s b).free_list_head = (if p = 0 then n else s.free_list_head) ∧
    (remove_block s b).len = s.len ∧
    (∀ i, i ≠ p + 2 → i ≠ n + 1 → readW (remove_block s b) i = readW s i) := by
  have hp' : s.mem (b + 1) = p := hp
  have hn' : s.mem (b + 2) = n := hn
  by_cases h1 : p = 0 <;> by_cases h2 : n = 0
  · have e : remove_block s b = { s with free_list_head := 0 } := by
      simp [remove_block, hp, hn, hhead, h1, h2]
    rw [e]
    subst h1 h2
    refine ⟨hp, hn, by simp, by simp, by simp, rfl, fun i _ _ => rfl⟩
  · have e : remove_block s b = { writeW s (n + 1) 0 with free_list_head := n } := by
      simp [remove_block, hp, hn, hhead, h1, h2]
    obtain ⟨hb1, hb2⟩ := hnb h2
    rw [e]
    subst h1
    refine ⟨?_, ?_, by simp, ?_, by simp, rfl, ?_⟩
    · simp [Ne.symm hb1, hp]
    · simp [Ne.symm hb2, hn]
    · intro _; simp
    · intro i _ hi2; simp [hi2]
  · have e : remove_block s b = writeW s (p + 2) 0 := by
      simp [remove_block, hp, hn, hhead, h1, h2]
    obtain ⟨hb1, hb2⟩ := hpb h1
    rw [e]
    subst h2
    refine ⟨?_, ?_, ?_, by simp, by simp [h1], rfl, ?_⟩
    · simp [Ne.symm hb1, hp]
    · simp [Ne.symm hb2, hn]
    · intro _; simp
    · intro i hi1 _; simp [hi1]
  · have e : remove_block s b = writeW (writeW s (p + 2) n) (n + 1) p := by
      simp [remove_block, hp, hn, hhead, h1, h2]
    obtain ⟨hpb1, hpb2⟩ := hpb h1
    obtain ⟨hnb1, hnb2⟩ := hnb h2
    have hd := hpn h1 h2
    rw [e]
    refine ⟨?_, ?_, ?_, ?_, by simp [h1], rfl, ?_⟩
    · simp [Ne.symm hpb1, Ne.symm hnb1, hp]
    · simp [Ne.symm hpb2, Ne.symm hnb2, hn]
    · intro _; simp [hd]
    · intro _; simp
    · intro i hi1 hi2; simp [hi1, hi2]

theorem remove_block_splices_witness :
    readW (remove_block threeFree 5) 6 = 1 ∧
    readW (remove_block threeFree 5) 7 = 9 ∧
    readW (remove_block threeFree 5) 3 = 9 ∧
    readW (remove_block threeFree 5) 10 = 1 ∧
    (remove_block threeFree 5).free_list_head = 1 ∧
    (remove_block threeFree 5).len = threeFree.len ∧
    readW (remove_block threeFree 5) 1 = readW threeFree 1 := by
  have h := remove_block_splices threeFree 5 1 9 (by decide) (by decide)
    (by decide) (fun _ => by decide) (fun _ => by decide) (fun _ _ => by decide)
  exact ⟨h.1, h.2.1, h.2.2.1 (by decide), h.2.2.2.1 (by decide),
    by rw [h.2.2.2.2.1]; decide, h.2.2.2.2.2.1,
    h.2.2.2.2.2.2 1 (by decide) (by decide)⟩

/-- C4 counterexample: in the reachable state after `allocate(24)` the
free block at index 7 is maximal (both heap neighbours allocated) and is
linked in the free list, yet `coalesce_block` does not leave the free
list unchanged: the unconditional re-insert rewrites the block's next
link from 0 to 7 (a self-loop). -/
theorem coalesce_maximal_not_unchanged :
    get_alloc alloc24.1 7 = false ∧
    extract_alloc (readW alloc24.1 (find_prev_footer 7)) = true ∧
    get_alloc alloc24.1 (find_next alloc24.1 7) = true ∧
    free_list alloc24.1 = [7] ∧
    alloc24.1.free_list_head = 7 ∧
    readW alloc24.1 (7 + 2) = 0 ∧
    readW (coalesce_block alloc24.1 7).1 (7 + 2) = 7 := by decide

/-- A coalesce with both boundary tags allocated performs no merge: on a
block whose header is exact and whose footer mirrors it, the rewrite is
the identity and only the re-insert remains. -/
theorem coalesce_allocated_neighbours (s : Heap) (b : Nat)
    (hpa : extract_alloc (readW s (find_prev_footer b)) = true)
    (hna : get_alloc s (find_next s b) = true)
    (hhdr : readW s b = get_size s b)
    (hftr : readW s (header_to_footer s b) = readW s b) :
    coalesce_block s b = (insert_block s b, b) := by
  have hsz : pack (get_size s b) false = readW s b := hhdr.symm
  have h1 : write_header s b (get_size s b) false = s := by
    rw [write_header, hsz]; exact writeW_self s b
  have h2 : write_footer s b (get_size s b) false = s := by
    have h := writeW_self s (header_to_footer s b)
    rw [hftr] at h
    rw [write_footer, hsz]
    exact h
  have e : coalesce_block s b =
      (insert_block
        (write_footer (write_header s b (get_size s b) false) b (get_size s b) false)
        b, b) := by
    simp [coalesce_block, hpa, hna]
  rw [e, h1, h2]

/-- C4 (amended): applying `coalesce_block` to an already-maximal free
block (exact header, mirrored footer, both neighbours allocated)
performs no merge and leaves the heap words unchanged, but then
unconditionally re-inserts the block at the head of the free list — it
does not leave the free list unchanged. -/
theorem coalesce_maximal_reinserts (s : Heap) (b : Nat)
    (hpa : extract_alloc (readW s (find_prev_footer b)) = true)
    (hna : get_alloc s (find_next s b) = true)
    (hhdr : readW s b = get_size s b)
    (hftr : readW s (header_to_footer s b) = readW s b) :
    coalesce_block s b = (insert_block s b, b) :=
  coalesce_allocated_neighbours s b hpa hna hhdr hftr

theorem coalesce_maximal_reinserts_witness :
    extract_alloc (readW alloc24.1 (find_prev_footer 7)) = true ∧
    get_alloc alloc24.1 (find_next alloc24.1 7) = true ∧
    readW alloc24.1 7 = get_size alloc24.1 7 ∧
    readW alloc24.1 (header_to_footer alloc24.1 7) = readW alloc24.1 7 ∧
    coalesce_block alloc24.1 7 = (insert_block alloc24.1 7, 7) :=
  ⟨by decide, by decide, by decide, by decide,
   coalesce_maximal_reinserts alloc24.1 7 (by decide) (by decide) (by decide) (by decide)⟩

/-- C5: the three merging cases of `coalesce_block`.  If only the next
neighbour is free, the next block is removed from the free list and the
block keeps its address with the summed size; if only the previous
neighbour is free, the previous block is removed and survives with the
summed size; if both are free, both are removed and the previous block
survives with the total size.  In every case the survivor's header and
end footer are rewritten as free with the new size (`write_header` then
`write_footer`, which places the footer from the just-written header),
and the survivor is inserted into the free list and returned. -/
theorem coalesce_cases (s : Heap) (b : Nat) :
    (extract_alloc (readW s (find_prev_footer b)) = true →
      get_alloc s (find_next s b) = false →
      coalesce_block s b =
        (insert_block
          (write_footer
            (write_header (remove_block s (find_next s b)) b
              (get_size s b + get_size s (find_next s b)) false)
            b (get_size s b + get_size s (find_next s b)) false)
          b, b)) ∧
    (extract_alloc (readW s (find_prev_footer b)) = false →
      get_alloc s (find_next s b) = true →
      coalesce_block s b =
        (insert_block
          (write_footer
            (write_header (remove_block s (find_prev s b)) (find_prev s b)
              (get_size s b + get_size s (find_prev s b)) false)
            (find_prev s b) (get_size s b + get_size s (find_prev s b)) false)
          (find_prev s b), find_prev s b)) ∧
    (extract_alloc (readW s (find_prev_footer b)) = false →
      get_alloc s (find_next s b) = false →
      coalesce_block s b =
        (insert_block
          (write_footer
            (write_header
              (remove_block (remove_block s (find_prev s b)) (find_next s b))
              (find_prev s b)
              (get_size s b + get_size s (find_prev s b) +
                get_size s (find_next s b)) false)
            (find_prev s b)
            (get_size s b + get_size s (find_prev s b) +
              get_size s (find_next s b)) false)
          (find_prev s b), find_prev s b)) := by
  refine ⟨fun h1 h2 => ?_, fun h1 h2 => ?_, fun h1 h2 => ?_⟩ <;>
    simp [coalesce_block, h1, h2]

theorem coalesce_cases_witness :
    (extract_alloc (readW alloc48.1 (find_prev_footer 1)) = true ∧
      get_alloc alloc48.1 (find_next alloc48.1 1) = false ∧
      coalesce_block alloc48.1 1 =
        (insert_block
          (write_footer
            (write_header (remove_block alloc48.1 (find_next alloc48.1 1)) 1
              (get_size alloc48.1 1 + get_size alloc48.1 (find_next alloc48.1 1)) false)
            1 (get_size alloc48.1 1 + get_size alloc48.1 (find_next alloc48.1 1)) false)
          1, 1)) ∧
    (extract_alloc (readW alloc48.1 (find_prev_footer 513)) = false ∧
      get_alloc alloc48.1 (find_next alloc48.1 513) = true ∧
      coalesce_block alloc48.1 513 =
        (insert_block
          (write_footer
            (write_header (remove_block alloc48.1 (find_prev alloc48.1 513))
              (find_prev alloc48.1 513)
              (get_size alloc48.1 513 + get_size alloc48.1 (find_prev alloc48.1 513)) false)
            (find_prev alloc48.1 513)
            (get_size alloc48.1 513 + get_size alloc48.1 (find_prev alloc48.1 513)) false)
          (find_prev alloc48.1 513), find_prev alloc48.1 513)) ∧
    (extract_alloc (readW threeBlocks (find_prev_footer 5)) = false ∧
      get_alloc threeBlocks (find_next threeBlocks 5) = false ∧
      coalesce_block threeBlocks 5 =
        (insert_block
          (write_footer
            (write_header
              (remove_block (remove_block threeBlocks (find_prev threeBlocks 5))
                (find_next threeBlocks 5))
              (find_prev threeBlocks 5)
              (get_size threeBlocks 5 + get_size threeBlocks (find_prev threeBlocks 5) +
                get_size threeBlocks (find_next threeBlocks 5)) false)
            (find_prev threeBlocks 5)
            (get_size threeBlocks 5 + get_size threeBlocks (find_prev threeBlocks 5) +
              get_size threeBlocks (find_next threeBlocks 5)) false)
          (find_prev threeBlocks 5), find_prev threeBlocks 5)) :=
  ⟨⟨by decide, by decide, (coalesce_cases alloc48.1 1).1 (by decide) (by decide)⟩,
   ⟨by decide, by decide, (coalesce_cases alloc48.1 513).2.1 (by decide) (by decide)⟩,
   ⟨by decide, by decide, (coalesce_cases threeBlocks 5).2.2 (by decide) (by decide)⟩⟩

/-- C6 counterexample: at n = 2^64 − 17 (a `size_t` value above
2^64 − 32) the normalised size the code computes is 0, because the
`size_t` additions in `size + dsize` and inside `round_up` wrap modulo
2^64; it is not n + 16 rounded up to the next multiple of 16. -/
theorem asize_overflow_counterexample :
    16 < 2 ^ 64 - 17 ∧ asize_of (2 ^ 64 - 17) = 0 ∧
    asize_of (2 ^ 64 - 17) ≠ 16 * ((2 ^ 64 - 17 + 16 + 15) / 16) := by decide

/-- C6 (amended): `allocate(0)` returns null for every state; for
1 ≤ n ≤ 16 the normalised block size is 32; and for 16 < n with
n + 31 < 2^64 (no `size_t` overflow) the normalised block size is
n + 16 rounded up to the next multiple of 16. -/
theorem malloc_normalisation :
    (∀ (s : Heap) (ok : Bool), mm_malloc s 0 ok = some (s, none)) ∧
    (∀ n, 1 ≤ n → n ≤ 16 → asize_of n = 32) ∧
    (∀ n, 16 < n → n + 31 < 2 ^ 64 → asize_of n = 16 * ((n + 16 + 15) / 16)) := by
  refine ⟨fun s ok => by simp [mm_malloc], fun n _ h2 => ?_, fun n h1 h2 => ?_⟩
  · simp [asize_of, dsize, min_block_size, h2]
  · have hn16 : ¬ n ≤ 16 := by omega
    have e1 : (n + 16) % wordMod = n + 16 :=
      Nat.mod_eq_of_lt (by simp only [wordMod]; omega)
    have e2 : (n + 16 + 15) % wordMod = n + 16 + 15 :=
      Nat.mod_eq_of_lt (by simp only [wordMod]; omega)
    have e3 : 16 * ((n + 16 + 15) / 16) % wordMod = 16 * ((n + 16 + 15) / 16) := by
      refine Nat.mod_eq_of_lt ?_
      have h4 : 16 * ((n + 16 + 15) / 16) ≤ n + 16 + 15 :=
        Nat.mul_comm ((n + 16 + 15) / 16) 16 ▸ Nat.div_mul_le_self (n + 16 + 15) 16
      simp only [wordMod]
      omega
    simp only [asize_of, dsize, round_up]
    rw [if_neg hn16, e1]
    norm_num
    rw [e2, e3]

theorem malloc_normalisation_witness :
    mm_malloc emptyHeap 0 true = some (emptyHeap, none) ∧
    asize_of 5 = 32 ∧ asize_of 24 = 48 := by
  refine ⟨malloc_normalisation.1 emptyHeap true,
    malloc_normalisation.2.1 5 (by decide) (by decide), ?_⟩
  have h := malloc_normalisation.2.2 24 (by decide) (by decide)
  simpa using h

/-- C1 (code bug): on the fresh heap, `allocate(5000)` finds no fit, the
heap provider refuses to extend, and the second `find_fit` returns NULL;
the C code then calls `get_size` / `remove_block` / `write_header` on
that NULL pointer instead of returning null — undefined behaviour,
modelled by the `none` result of `mm_malloc`. -/
theorem malloc_oom_dereferences_null :
    find_fit heap0 (asize_of 5000) = none ∧
    extend_heap heap0 (max chunksize (asize_of 5000)) false = (heap0, none) ∧
    mm_malloc heap0 5000 false = none :=
  ⟨by decide, rfl, rfl⟩

/-- C2 counterexample: on the fresh heap (one free block of 4096 bytes),
`allocate(4096 − 32 − 16)` normalises to 4064, which is 32 bytes short
of the free block, so a split DOES occur: the allocated block is resized
to 4064, a 32-byte free block remains on the free list, and the
subsequent `allocate(16)` is satisfied from it with no heap
extension. -/
theorem exact_fit_scenario_counterexample :
    get_size heap0 1 = 4096 ∧ free_list heap0 = [1] ∧
    alloc4048.2 = some 2 ∧
    get_size alloc4048.1 1 = 4064 ∧
    free_list alloc4048.1 = [509] ∧
    get_size alloc4048.1 509 = 32 ∧
    alloc4048_16.2 = some 510 ∧
    alloc4048_16.1.len = heap0.len := by decide

/-- C2 (amended): the exact-fit request on the fresh heap is
`allocate(4096 − 16)` (normalised size 4096 = the free block's size):
no split occurs, the free list becomes empty, and the subsequent
`allocate(16)` triggers a heap extension of 4096 bytes (512 words). -/
theorem exact_fit_no_split :
    alloc4080.2 = some 2 ∧
    get_size alloc4080.1 1 = 4096 ∧ get_alloc alloc4080.1 1 = true ∧
    alloc4080.1.free_list_head = 0 ∧ free_list alloc4080.1 = [] ∧
    alloc4080.1.len = heap0.len ∧
    alloc4080_16.2 = some 514 ∧
    alloc4080_16.1.len = heap0.len + 512 := by decide

/-- C3 counterexample: after `allocate(24)` on the fresh heap the single
free block has size 4048 = 4096 − 48 (the request normalises to a
48-byte block), not 4096 − 32. -/
theorem fresh_alloc_counterexample :
    alloc24.2 = some 2 ∧ free_list alloc24.1 = [7] ∧
    get_size alloc24.1 7 = 4048 ∧ get_size alloc24.1 7 ≠ 4096 - 32 := by decide

/-- C3 (amended): after `allocate(24)` on the fresh heap the returned
payload is non-null and the free list contains exactly one block, whose
size is 4096 − 48. -/
theorem fresh_alloc_free_block :
    alloc24.2 = some 2 ∧ free_list alloc24.1 = [7] ∧
    get_alloc alloc24.1 7 = false ∧ get_size alloc24.1 7 = 4096 - 48 := by decide

end MM
